import Mathlib

/-!
Verification of the duplicate-detection engine of `lastfm-scrobble-cleaner`.

The engine lives in `detect-duplicates.ts`.  Two revisions of that file are
relevant and both are embedded here:

* namespace `DD`  — the three-detector revision: `groupIntoSessions`,
  `detectSessionReplay` (plain name match), `detectDurationOverlaps`,
  `detectIncompleteReplays` and the three-pass merge in `detectDuplicates`.
* namespace `DDC` — the revision whose `detectSessionReplay` additionally
  queries the duration lookup and suppresses the flag when the gap to the
  next event reaches half of the track duration; its merge has two passes.

Modelling conventions:
* `date.uts` is a decimal string parsed with `parseInt`; we model the parsed
  value directly as an `Int` field `uts`, which is also the identity key used
  by the merge sets (the data model declares timestamps unique).
* JavaScript `number` arithmetic on durations (`durationMs / 1000`,
  `* 0.9`, `* 0.5`) is idealized as exact arithmetic over `Rat`; decimal
  literals such as `0.9` denote the exact rational `9/10`.
* The asynchronous duration lookup `(artist, track) => Promise<number | null>`
  is modelled as a pure function `String → String → Option Nat`: the lookup
  returns a track length in milliseconds, or `none` for unknown.
* Mutable-array behaviour (the `[...scrobbles].reverse()` copies) is modelled
  with an explicit store of arrays at the end of the definitions section.
-/

/-- A scrobble event: `artist["#text"]`, `name`, and the parsed `date.uts`. -/
structure Scrobble where
  artistName : String
  trackName : String
  uts : Int
deriving DecidableEq, Repr

/-- The Duration Lookup collaborator: track length in milliseconds, or unknown. -/
abbrev GetDuration := String → String → Option Nat

/-- Reasons of `FlaggedDuplicate.reason`; the `DDC` revision only ever uses the
first, second and fourth constructors. -/
inductive Reason where
  | sessionReplay
  | durationOverlap
  | incompleteReplay
  | both
deriving DecidableEq, Repr

/-- One flagged duplicate: the scrobble together with the detector reason. -/
structure FlaggedDuplicate where
  scrobble : Scrobble
  reason : Reason
deriving DecidableEq, Repr

/-- The engine result: flagged duplicates plus session statistics. -/
structure DetectionResult where
  flagged : List FlaggedDuplicate
  sessionCount : Nat
  scrobbleCount : Nat
deriving DecidableEq, Repr

/-- All timestamps of the list are pairwise distinct; the data model declares
`timestampSeconds` unique within a user's history and uses it as identity. -/
abbrev utsNodup (l : List Scrobble) : Prop := (l.map (fun s => s.uts)).Nodup

/-- Gap between consecutive events of one session stays within the threshold. -/
def leGap (gap : Int) (a b : Scrobble) : Prop := b.uts - a.uts ≤ gap

/-- Gap from a session's last event to the next session's first event exceeds
the threshold. -/
def bdryGap (gap : Int) (s t : List Scrobble) : Prop :=
  ∀ a b, s.getLast? = some a → t.head? = some b → b.uts - a.uts > gap

namespace DD

/-- Appending `c` to the last session, as in `sessions[sessions.length - 1].scrobbles.push(c)`. -/
def appendToLast (ss : List (List Scrobble)) (c : Scrobble) : List (List Scrobble) :=
  match ss with
  | [] => []
  | [s] => [s ++ [c]]
  | s :: s2 :: rest => s :: appendToLast (s2 :: rest) c

/-- The loop of `groupIntoSessions`: walk the chronological tail, carrying the
previous event (`chrono[i - 1]`) and the sessions built so far; start a new
session when `curr - prev > gapSeconds`, otherwise push onto the last session. -/
def groupLoop (gap : Int) : List Scrobble → Scrobble → List (List Scrobble) → List (List Scrobble)
  | [], _, sessions => sessions
  | c :: rest, prev, sessions =>
    if c.uts - prev.uts > gap then groupLoop gap rest c (sessions ++ [[c]])
    else groupLoop gap rest c (appendToLast sessions c)

/-- Session grouping of an already chronological list: seed with `[[chrono[0]]]`
and run the loop. -/
def sessionsOfChrono (chrono : List Scrobble) (gap : Int) : List (List Scrobble) :=
  match chrono with
  | [] => []
  | c0 :: rest => groupLoop gap rest c0 [[c0]]

/-- The function `groupIntoSessions`: empty guard, reverse a copy to chronological order,
then group on time gaps. -/
def groupIntoSessions (scrobbles : List Scrobble) (gapSeconds : Int) : List (List Scrobble) :=
  if scrobbles = [] then [] else sessionsOfChrono scrobbles.reverse gapSeconds

/-- Functional view of the grouping loop: given the element preceding `l`,
return the events of `l` that extend the previous session, together with the
later sessions. -/
def sessionsRel (gap : Int) : Scrobble → List Scrobble → List Scrobble × List (List Scrobble)
  | _, [] => ([], [])
  | prev, c :: rest =>
    let pr := sessionsRel gap c rest
    if c.uts - prev.uts > gap then ([], (c :: pr.1) :: pr.2)
    else (c :: pr.1, pr.2)

/-- The `detectSessionReplay` of the three-detector revision: flag the first event
of `after` exactly when it names the same track as the last event of `before`.
The wildcard case is unreachable in the pipeline: the partition only produces
non-empty sessions. -/
def detectSessionReplay (before after : List Scrobble) : List Scrobble :=
  match before.getLast?, after.head? with
  | some lastTrack, some firstTrack =>
    if lastTrack.artistName == firstTrack.artistName && lastTrack.trackName == firstTrack.trackName
    then [firstTrack] else []
  | _, _ => []

/-- Flag decision for one adjacent chronological pair of
`detectDurationOverlaps`: same artist and track, known non-zero duration, and
gap strictly below 90% of the duration in seconds. -/
def overlapFlag (g : GetDuration) (prev curr : Scrobble) : Bool :=
  if prev.artistName == curr.artistName && prev.trackName == curr.trackName then
    match g curr.artistName curr.trackName with
    | none => false
    | some durationMs =>
      if durationMs = 0 then false
      else decide (((curr.uts - prev.uts : Int) : Rat) < (durationMs : Rat) / 1000 * 0.9)
  else false

/-- The loop of `detectDurationOverlaps` over the chronological list, carrying
`chrono[i - 1]`. -/
def overlapGo (g : GetDuration) : Scrobble → List Scrobble → List Scrobble
  | _, [] => []
  | prev, curr :: rest =>
    (if overlapFlag g prev curr then [curr] else []) ++ overlapGo g curr rest

/-- The function `detectDurationOverlaps`: reverse a copy to chronological order and scan
adjacent pairs. -/
def detectDurationOverlaps (scrobbles : List Scrobble) (g : GetDuration) : List Scrobble :=
  match scrobbles.reverse with
  | [] => []
  | c :: rest => overlapGo g c rest

/-- The inner `while` of `detectIncompleteReplays` that finds the end of the
current run: split off the events matching the run's first element `a`
(`chrono[runStart]`). -/
def takeRun (a : Scrobble) : List Scrobble → List Scrobble × List Scrobble
  | [] => ([], [])
  | b :: rest =>
    if b.artistName == a.artistName && b.trackName == a.trackName then
      (b :: (takeRun a rest).1, (takeRun a rest).2)
    else ([], b :: rest)

/-- The `completed` array of `detectIncompleteReplays`: an event of the run is
completed when the gap to the immediately following stream event (the next run
event, or `next?` for the run's last event) is at least 90% of the duration in
seconds; the globally-last stream event (`next? = none`) counts as completed. -/
def completedFlags (durationMs : Nat) (next? : Option Scrobble) : List Scrobble → List Bool
  | [] => []
  | [x] =>
    match next? with
    | none => [true]
    | some nxt => [decide (((nxt.uts - x.uts : Int) : Rat) ≥ (durationMs : Rat) / 1000 * 0.9)]
  | x :: y :: rest =>
    decide (((y.uts - x.uts : Int) : Rat) ≥ (durationMs : Rat) / 1000 * 0.9) ::
      completedFlags durationMs next? (y :: rest)

/-- Keep the run events whose completion flag is `false` (the flagged ones of
the `anyCompleted` branch), in run order. -/
def keepFlags : List Scrobble → List Bool → List Scrobble
  | x :: xs, b :: bs => (if b then [] else [x]) ++ keepFlags xs bs
  | _, _ => []

/-- Body of `detectIncompleteReplays` for one run with known duration: if any
event completed, flag exactly the non-completed ones; otherwise flag every
event but the first. -/
def processRun (run : List Scrobble) (next? : Option Scrobble) (durationMs : Nat) : List Scrobble :=
  let completed := completedFlags durationMs next? run
  if completed.any (fun b => b) then keepFlags run completed else run.tail

/-- Flags contributed by one maximal run: runs of length 1 are skipped, as are
runs whose duration is unknown or not positive. -/
def runFlags (g : GetDuration) (run : List Scrobble) (next? : Option Scrobble) : List Scrobble :=
  match run with
  | [] => []
  | [_] => []
  | r0 :: _ :: _ =>
    match g r0.artistName r0.trackName with
    | none => []
    | some durationMs => if 0 < durationMs then processRun run next? durationMs else []

/-- The outer `while` of `detectIncompleteReplays`: peel off one maximal run at
a time and continue at `runEnd + 1`. -/
def incompleteGo (g : GetDuration) : List Scrobble → List Scrobble
  | [] => []
  | a :: rest =>
    runFlags g (a :: (takeRun a rest).1) (takeRun a rest).2.head? ++
      incompleteGo g (takeRun a rest).2
termination_by l => l.length
decreasing_by
  have hle : ∀ (x : Scrobble) (l : List Scrobble), (takeRun x l).2.length ≤ l.length := by
    intro x l
    induction l with
    | nil => simp [takeRun]
    | cons b bs ih =>
      cases hb : (b.artistName == x.artistName && b.trackName == x.trackName)
      · simp [takeRun, hb]
      · simp [takeRun, hb]
        exact Nat.le_succ_of_le ih
  simpa using Nat.lt_succ_of_le (hle _ _)

/-- The function `detectIncompleteReplays`: short-input guard, reverse a copy to
chronological order, then process runs of identical tracks. -/
def detectIncompleteReplays (scrobbles : List Scrobble) (g : GetDuration) : List Scrobble :=
  if scrobbles.length < 2 then [] else incompleteGo g scrobbles.reverse

/-- The session-replay pass of `detectDuplicates`: collect the detector output
over every adjacent session pair, in session order. -/
def replayFlagsOf (sessions : List (List Scrobble)) : List Scrobble :=
  (sessions.zip sessions.tail).flatMap (fun p => detectSessionReplay p.1 p.2)

/-- First merge loop of `detectDuplicates`: every session-replay scrobble is
recorded as seen and flagged, with reason `both` when the duration-overlap
detector also flagged its timestamp. -/
def mergeStep1 (durationUts : List Int) (acc : List Int × List FlaggedDuplicate) (s : Scrobble) :
    List Int × List FlaggedDuplicate :=
  (s.uts :: acc.1,
    acc.2 ++ [⟨s, if s.uts ∈ durationUts then Reason.both else Reason.sessionReplay⟩])

/-- Second and third merge loops of the three-pass merge: skip timestamps that
were already seen, otherwise record as seen and flag with the given reason. -/
def mergeStepNew (r : Reason) (acc : List Int × List FlaggedDuplicate) (s : Scrobble) :
    List Int × List FlaggedDuplicate :=
  if s.uts ∈ acc.1 then acc else (s.uts :: acc.1, acc.2 ++ [⟨s, r⟩])

/-- The `detectDuplicates` of the three-detector revision: partition into sessions,
run the three detectors, and merge their flags in priority order. -/
def detectDuplicates (scrobbles : List Scrobble) (gapSeconds : Int) (g : GetDuration) :
    DetectionResult :=
  let sessions := groupIntoSessions scrobbles gapSeconds
  let replayScrobbles := replayFlagsOf sessions
  let durationDups := detectDurationOverlaps scrobbles g
  let durationUts := durationDups.map (fun d => d.uts)
  let incompleteDups := detectIncompleteReplays scrobbles g
  let st1 := replayScrobbles.foldl (mergeStep1 durationUts) ([], [])
  let st2 := durationDups.foldl (mergeStepNew Reason.durationOverlap) st1
  let st3 := incompleteDups.foldl (mergeStepNew Reason.incompleteReplay) st2
  { flagged := st3.2, sessionCount := sessions.length, scrobbleCount := scrobbles.length }

end DD

namespace DDC

/-- The `detectSessionReplay` of the duration-checked revision: on a name match,
a single-event `after` session is always flagged; otherwise the gap from the
first to the second event of `after` is compared against half of the track
duration, with unknown or zero duration flagged conservatively.  The wildcard
case is unreachable in the pipeline: partition sessions are never empty. -/
def detectSessionReplay (before after : List Scrobble) (getDuration : GetDuration) :
    List Scrobble :=
  match before.getLast?, after with
  | some lastTrack, firstTrack :: afterRest =>
    if lastTrack.artistName != firstTrack.artistName ||
        lastTrack.trackName != firstTrack.trackName then []
    else
      match afterRest with
      | [] => [firstTrack]
      | nextTrack :: _ =>
        match getDuration firstTrack.artistName firstTrack.trackName with
        | none => [firstTrack]
        | some durationMs =>
          if durationMs = 0 then [firstTrack]
          else if ((nextTrack.uts - firstTrack.uts : Int) : Rat) ≥
              (durationMs : Rat) / 1000 * 0.5 then []
          else [firstTrack]
  | _, _ => []

/-- The session-replay pass of the duration-checked revision. -/
def replayFlagsOf (sessions : List (List Scrobble)) (g : GetDuration) : List Scrobble :=
  (sessions.zip sessions.tail).flatMap (fun p => detectSessionReplay p.1 p.2 g)

/-- Second merge loop of the two-pass merge: this revision checks `seen` but
never extends it in this loop. -/
def mergeStepOld (r : Reason) (acc : List Int × List FlaggedDuplicate) (s : Scrobble) :
    List Int × List FlaggedDuplicate :=
  if s.uts ∈ acc.1 then acc else (acc.1, acc.2 ++ [⟨s, r⟩])

/-- The `detectDuplicates` of the duration-checked revision: sessions, two
detectors, two merge passes.  `groupIntoSessions` and `detectDurationOverlaps`
are textually identical in the two revisions, so the `DD` embeddings are
reused. -/
def detectDuplicates (scrobbles : List Scrobble) (gapSeconds : Int) (g : GetDuration) :
    DetectionResult :=
  let sessions := DD.groupIntoSessions scrobbles gapSeconds
  let replayScrobbles := replayFlagsOf sessions g
  let durationDups := DD.detectDurationOverlaps scrobbles g
  let durationUts := durationDups.map (fun d => d.uts)
  let st1 := replayScrobbles.foldl (DD.mergeStep1 durationUts) ([], [])
  let st2 := durationDups.foldl (mergeStepOld Reason.durationOverlap) st1
  { flagged := st2.2, sessionCount := sessions.length, scrobbleCount := scrobbles.length }

end DDC

/-- A store of JavaScript arrays of scrobbles, addressed by reference index. -/
abbrev Store : Type := List (List Scrobble)

/-- Read the array behind a reference. -/
def readArr (st : Store) (r : Nat) : List Scrobble :=
  List.getD st r []

/-- The `[...scrobbles].reverse()` idiom: allocate a copy of the referenced
array, reverse the copy in place, and return the new reference. -/
def spreadReverse (st : Store) (r : Nat) : Store × Nat :=
  (st ++ [(readArr st r).reverse], st.length)

namespace DD

/-- Store-passing `groupIntoSessions`: reads the caller's array, works on a
reversed copy. -/
def groupIntoSessionsSt (st : Store) (r : Nat) (gap : Int) : Store × List (List Scrobble) :=
  if readArr st r = [] then (st, [])
  else
    let s1 := spreadReverse st r
    (s1.1, sessionsOfChrono (readArr s1.1 s1.2) gap)

/-- Store-passing `detectDurationOverlaps`. -/
def detectDurationOverlapsSt (st : Store) (r : Nat) (g : GetDuration) : Store × List Scrobble :=
  let s1 := spreadReverse st r
  (s1.1,
    match readArr s1.1 s1.2 with
    | [] => []
    | c :: rest => overlapGo g c rest)

/-- Store-passing `detectIncompleteReplays`. -/
def detectIncompleteReplaysSt (st : Store) (r : Nat) (g : GetDuration) : Store × List Scrobble :=
  if (readArr st r).length < 2 then (st, [])
  else
    let s1 := spreadReverse st r
    (s1.1, incompleteGo g (readArr s1.1 s1.2))

/-- Store-passing `detectDuplicates`: the caller passes a reference to its
scrobble array; the three passes each take their own reversed copy. -/
def detectDuplicatesSt (st : Store) (r : Nat) (gapSeconds : Int) (g : GetDuration) :
    Store × DetectionResult :=
  let p1 := groupIntoSessionsSt st r gapSeconds
  let replayScrobbles := replayFlagsOf p1.2
  let p2 := detectDurationOverlapsSt p1.1 r g
  let durationUts := p2.2.map (fun d => d.uts)
  let p3 := detectIncompleteReplaysSt p2.1 r g
  let st1 := replayScrobbles.foldl (mergeStep1 durationUts) ([], [])
  let st2 := p2.2.foldl (mergeStepNew Reason.durationOverlap) st1
  let st3 := p3.2.foldl (mergeStepNew Reason.incompleteReplay) st2
  (p3.1,
    { flagged := st3.2, sessionCount := p1.2.length,
      scrobbleCount := (readArr st r).length })

end DD

namespace DD

theorem appendToLast_concat (ss : List (List Scrobble)) (s : List Scrobble) (c : Scrobble) :
    appendToLast (ss ++ [s]) c = ss ++ [s ++ [c]] := by
  induction ss with
  | nil => rfl
  | cons t ts ih =>
    cases ts with
    | nil => simp [appendToLast]
    | cons u us => simpa [appendToLast] using ih

theorem groupLoop_eq (gap : Int) (l : List Scrobble) :
    ∀ (prev : Scrobble) (ss : List (List Scrobble)) (s : List Scrobble),
      groupLoop gap l prev (ss ++ [s]) =
        ss ++ (s ++ (sessionsRel gap prev l).1) :: (sessionsRel gap prev l).2 := by
  induction l with
  | nil => intro prev ss s; simp [groupLoop, sessionsRel]
  | cons c rest ih =>
    intro prev ss s
    by_cases h : c.uts - prev.uts > gap
    · have step : groupLoop gap (c :: rest) prev (ss ++ [s]) =
        groupLoop gap rest c ((ss ++ [s]) ++ [[c]]) := by
        simp [groupLoop, h]
      rw [step, ih c (ss ++ [s]) [c]]
      simp [sessionsRel, h]
    · have step : groupLoop gap (c :: rest) prev (ss ++ [s]) =
        groupLoop gap rest c (ss ++ [s ++ [c]]) := by
        simp [groupLoop, h, appendToLast_concat]
      rw [step, ih c ss (s ++ [c])]
      simp [sessionsRel, h]

/-- Everything needed about the grouping in one statement: the split covers the
list, intra-session gaps stay within the threshold (including the link back to
`prev`), later sessions are non-empty, and session boundaries exceed the
threshold. -/
theorem sessionsRel_spec (gap : Int) :
    ∀ (l : List Scrobble) (prev : Scrobble),
      (sessionsRel gap prev l).1 ++ (sessionsRel gap prev l).2.flatten = l ∧
      List.Chain' (leGap gap) (prev :: (sessionsRel gap prev l).1) ∧
      (∀ s ∈ (sessionsRel gap prev l).2, s ≠ [] ∧ List.Chain' (leGap gap) s) ∧
      List.Chain' (bdryGap gap) ((prev :: (sessionsRel gap prev l).1) :: (sessionsRel gap prev l).2) := by
  intro l
  induction l with
  | nil =>
    intro prev
    refine ⟨rfl, ?_, ?_, ?_⟩ <;> simp [sessionsRel]
  | cons c rest ih =>
    intro prev
    obtain ⟨ihJoin, ihChain, ihChunks, ihBdry⟩ := ih c
    by_cases h : c.uts - prev.uts > gap
    · have hrel : sessionsRel gap prev (c :: rest) =
        ([], (c :: (sessionsRel gap c rest).1) :: (sessionsRel gap c rest).2) := by
        simp [sessionsRel, h]
      rw [hrel]
      refine ⟨by simpa using ihJoin, by simp, ?_, ?_⟩
      · intro s hs
        rcases List.mem_cons.mp hs with hEq | hMem
        · subst hEq
          exact ⟨List.cons_ne_nil _ _, ihChain⟩
        · exact ihChunks s hMem
      · refine List.chain'_cons.mpr ⟨?_, ihBdry⟩
        intro a b ha hb
        simp at ha hb
        rw [← ha, ← hb]
        exact h
    · have hrel : sessionsRel gap prev (c :: rest) =
        (c :: (sessionsRel gap c rest).1, (sessionsRel gap c rest).2) := by
        simp [sessionsRel, h]
      rw [hrel]
      refine ⟨by simpa using ihJoin, ?_, ihChunks, ?_⟩
      · exact List.chain'_cons.mpr ⟨not_lt.mp h, ihChain⟩
      · rcases List.chain'_cons'.mp ihBdry with ⟨hHead, hRest⟩
        refine List.chain'_cons'.mpr ⟨?_, hRest⟩
        intro t ht a b ha hb
        refine hHead t ht a b ?_ hb
        rw [List.getLast?_cons_cons] at ha
        exact ha

theorem groupIntoSessions_eq (scrobbles : List Scrobble) (gap : Int)
    (c0 : Scrobble) (rest : List Scrobble) (h : scrobbles.reverse = c0 :: rest) :
    groupIntoSessions scrobbles gap =
      (c0 :: (sessionsRel gap c0 rest).1) :: (sessionsRel gap c0 rest).2 := by
  have hne : scrobbles ≠ [] := by
    intro hs
    rw [hs] at h
    simp at h
  rw [groupIntoSessions, if_neg hne, h]
  simpa [sessionsOfChrono] using groupLoop_eq gap rest c0 [] [c0]

/-- Partition facts used by several claims: the sessions flatten back to the
chronological stream, every session is non-empty with internal gaps within the
threshold, and consecutive sessions are separated by gaps above the threshold. -/
theorem groupIntoSessions_spec (scrobbles : List Scrobble) (gap : Int) :
    (groupIntoSessions scrobbles gap).flatten = scrobbles.reverse ∧
    (∀ s ∈ groupIntoSessions scrobbles gap, s ≠ [] ∧ List.Chain' (leGap gap) s) ∧
    List.Chain' (bdryGap gap) (groupIntoSessions scrobbles gap) := by
  cases hrev : scrobbles.reverse with
  | nil =>
    have hnil : scrobbles = [] := by
      simpa using congrArg List.reverse hrev
    subst hnil
    simp [groupIntoSessions]
  | cons c0 rest =>
    rw [groupIntoSessions_eq scrobbles gap c0 rest hrev]
    obtain ⟨hJoin, hChain, hChunks, hBdry⟩ := sessionsRel_spec gap rest c0
    refine ⟨?_, ?_, hBdry⟩
    · simpa using hJoin
    · intro s hs
      rcases List.mem_cons.mp hs with hEq | hMem
      · subst hEq
        exact ⟨List.cons_ne_nil _ _, hChain⟩
      · exact hChunks s hMem

end DD

/-- C4: for every event list and every `gapSeconds`, the session partitioner
returns the empty list on empty input, and otherwise non-empty sessions that
together contain every input event exactly once in chronological order
(flattening back to the reversed, i.e. oldest-first, stream), with every
internal gap at most `gapSeconds` (a gap equal to the threshold stays in the
session) and every gap from a session's last event to the next session's first
event strictly greater than `gapSeconds`. -/
theorem claim_C4_session_partition (scrobbles : List Scrobble) (gapSeconds : Int) :
    (scrobbles = [] → DD.groupIntoSessions scrobbles gapSeconds = []) ∧
    (DD.groupIntoSessions scrobbles gapSeconds).flatten = scrobbles.reverse ∧
    (∀ s ∈ DD.groupIntoSessions scrobbles gapSeconds, s ≠ [] ∧ List.Chain' (leGap gapSeconds) s) ∧
    List.Chain' (bdryGap gapSeconds) (DD.groupIntoSessions scrobbles gapSeconds) := by
  obtain ⟨h1, h2, h3⟩ := DD.groupIntoSessions_spec scrobbles gapSeconds
  refine ⟨?_, h1, h2, h3⟩
  intro hnil
  simp [DD.groupIntoSessions, hnil]

/-- Witness for C4 at a concrete two-session stream: the session containing the
older event is non-empty, its internal chain condition holds, and the partition
of the empty stream is empty. -/
theorem claim_C4_session_partition_witness :
    ([⟨"A", "T", 0⟩] ≠ ([] : List Scrobble) ∧
      List.Chain' (leGap 10) [(⟨"A", "T", 0⟩ : Scrobble)]) ∧
    DD.groupIntoSessions [] 10 = [] := by
  constructor
  · exact (claim_C4_session_partition [⟨"B", "U", 40⟩, ⟨"A", "T", 0⟩] 10).2.2.1
      [⟨"A", "T", 0⟩] (by decide)
  · exact (claim_C4_session_partition [] 10).1 rfl

/-- C1: for an adjacent session pair of the gap partition whose boundary tracks
match exactly, where the later session has at least two events and the Duration
Lookup knows a non-zero duration for the track, the duration-checked
session-replay detector flags the first event of the later session exactly when
the gap to the session's second event is strictly below half of the track
duration in seconds. -/
theorem claim_C1_replay_half_duration_rule
    (scrobbles : List Scrobble) (gapSeconds : Int) (g : GetDuration) (i : Nat)
    (before after : List Scrobble) (lastT firstT nextT : Scrobble)
    (restA : List Scrobble) (d : Nat)
    (hb : (DD.groupIntoSessions scrobbles gapSeconds)[i]? = some before)
    (ha : (DD.groupIntoSessions scrobbles gapSeconds)[i + 1]? = some after)
    (hlast : before.getLast? = some lastT)
    (hafter : after = firstT :: nextT :: restA)
    (hartist : lastT.artistName = firstT.artistName)
    (htrack : lastT.trackName = firstT.trackName)
    (hdur : g firstT.artistName firstT.trackName = some d) (hd0 : d ≠ 0) :
    DDC.detectSessionReplay before after g =
      (if ((nextT.uts - firstT.uts : Int) : Rat) < (d : Rat) / 1000 * 0.5
        then [firstT] else []) := by
  subst hafter
  rw [DDC.detectSessionReplay.eq_def, hlast]
  simp only [hartist, htrack, bne_self_eq_false, Bool.or_self, Bool.false_eq_true, if_false, hdur]
  rw [if_neg hd0]
  by_cases hgap : ((nextT.uts - firstT.uts : Int) : Rat) < (d : Rat) / 1000 * 0.5
  · rw [if_neg (by exact not_le.mpr hgap), if_pos hgap]
  · rw [if_pos (not_lt.mp hgap), if_neg hgap]

/-- Witness for C1: a concrete two-session stream where the matched first event
of the later session was played for 300 of its 300 seconds of duration, so the
gap reaches half the duration and the event is not flagged. -/
theorem claim_C1_replay_half_duration_rule_witness :
    DDC.detectSessionReplay [⟨"A", "T", 1000⟩] [⟨"A", "T", 1900⟩, ⟨"Y", "S", 2200⟩]
      (fun _ _ => some 300000) = [] := by
  have h := claim_C1_replay_half_duration_rule
    [⟨"Y", "S", 2200⟩, ⟨"A", "T", 1900⟩, ⟨"A", "T", 1000⟩] 600 (fun _ _ => some 300000) 0
    [⟨"A", "T", 1000⟩] [⟨"A", "T", 1900⟩, ⟨"Y", "S", 2200⟩]
    ⟨"A", "T", 1000⟩ ⟨"A", "T", 1900⟩ ⟨"Y", "S", 2200⟩ [] 300000
    (by decide) (by decide) rfl rfl rfl rfl rfl (by decide)
  rw [h]
  norm_num

/-- C7: for an adjacent session pair of the gap partition where the later
session consists of exactly one event naming the same track as the earlier
session's last event, that event is flagged by the session-replay detector of
both revisions, whatever the Duration Lookup would answer. -/
theorem claim_C7_single_event_session
    (scrobbles : List Scrobble) (gapSeconds : Int) (i : Nat)
    (before after : List Scrobble) (lastT x : Scrobble)
    (hb : (DD.groupIntoSessions scrobbles gapSeconds)[i]? = some before)
    (ha : (DD.groupIntoSessions scrobbles gapSeconds)[i + 1]? = some after)
    (hlast : before.getLast? = some lastT)
    (hafter : after = [x])
    (hartist : lastT.artistName = x.artistName)
    (htrack : lastT.trackName = x.trackName) :
    (∀ g : GetDuration, DDC.detectSessionReplay before after g = [x]) ∧
    DD.detectSessionReplay before after = [x] := by
  subst hafter
  constructor
  · intro g
    rw [DDC.detectSessionReplay.eq_def, hlast]
    simp [hartist, htrack]
  · rw [DD.detectSessionReplay.eq_def, hlast]
    simp [hartist, htrack]

/-- Witness for C7: a concrete two-session stream whose later session is the
single matching event; it is flagged even though the lookup knows a duration. -/
theorem claim_C7_single_event_session_witness :
    DDC.detectSessionReplay [⟨"A", "T", 1000⟩] [⟨"A", "T", 5000⟩]
      (fun _ _ => some 300000) = [⟨"A", "T", 5000⟩] ∧
    DD.detectSessionReplay [⟨"A", "T", 1000⟩] [⟨"A", "T", 5000⟩] = [⟨"A", "T", 5000⟩] := by
  have h := claim_C7_single_event_session
    [⟨"A", "T", 5000⟩, ⟨"A", "T", 1000⟩] 600 0
    [⟨"A", "T", 1000⟩] [⟨"A", "T", 5000⟩] ⟨"A", "T", 1000⟩ ⟨"A", "T", 5000⟩
    (by decide) (by decide) rfl rfl rfl rfl
  exact ⟨h.1 (fun _ _ => some 300000), h.2⟩

theorem utsNodup_reverse (l : List Scrobble) : utsNodup l.reverse ↔ utsNodup l := by
  simp [utsNodup, List.map_reverse]

theorem utsNodup_cons_iff (x : Scrobble) (l : List Scrobble) :
    utsNodup (x :: l) ↔ (∀ y ∈ l, y.uts ≠ x.uts) ∧ utsNodup l := by
  simp only [utsNodup, List.map_cons, List.nodup_cons, List.mem_map]
  constructor
  · rintro ⟨h1, h2⟩
    refine ⟨?_, h2⟩
    intro y hy hEq
    exact h1 ⟨y, hy, hEq⟩
  · rintro ⟨h1, h2⟩
    refine ⟨?_, h2⟩
    rintro ⟨y, hy, hEq⟩
    exact h1 y hy hEq

namespace DD

theorem overlapGo_sublist (g : GetDuration) :
    ∀ (p : Scrobble) (l : List Scrobble), List.Sublist (overlapGo g p l) l := by
  intro p l
  induction l generalizing p with
  | nil => simp [overlapGo]
  | cons curr rest ih =>
    rw [overlapGo]
    cases hf : overlapFlag g p curr
    · simpa [hf] using (ih curr).cons curr
    · simpa [hf] using (ih curr).cons₂ curr

theorem overlapFlag_eq_true_iff (g : GetDuration) (prev curr : Scrobble)
    (ha : prev.artistName = curr.artistName) (ht : prev.trackName = curr.trackName) :
    overlapFlag g prev curr = true ↔
      ∃ d : Nat, g curr.artistName curr.trackName = some d ∧ d ≠ 0 ∧
        ((curr.uts - prev.uts : Int) : Rat) < (d : Rat) / 1000 * 0.9 := by
  rw [overlapFlag]
  simp only [ha, ht, beq_self_eq_true, Bool.and_self, if_true]
  cases hd : g curr.artistName curr.trackName with
  | none => simp
  | some d =>
    by_cases h0 : d = 0
    · simp [h0]
    · simp [h0]

theorem overlapGo_mem_head (g : GetDuration) (prev curr : Scrobble) (l2 : List Scrobble)
    (hnd : utsNodup (prev :: curr :: l2)) :
    curr ∈ overlapGo g prev (curr :: l2) ↔ overlapFlag g prev curr = true := by
  have hnd2 := ((utsNodup_cons_iff prev (curr :: l2)).mp hnd).2
  have hcurr := ((utsNodup_cons_iff curr l2).mp hnd2).1
  have hnotin : curr ∉ overlapGo g curr l2 := by
    intro hmem
    exact hcurr curr ((overlapGo_sublist g curr l2).subset hmem) rfl
  rw [overlapGo]
  cases hf : overlapFlag g prev curr
  · simpa [hf] using hnotin
  · simp

theorem overlapGo_mem_middle (g : GetDuration) :
    ∀ (l1 : List Scrobble) (p prev curr : Scrobble) (l2 : List Scrobble),
      utsNodup (p :: (l1 ++ prev :: curr :: l2)) →
      (curr ∈ overlapGo g p (l1 ++ prev :: curr :: l2) ↔
        overlapFlag g prev curr = true) := by
  intro l1
  induction l1 with
  | nil =>
    intro p prev curr l2 hnd
    obtain ⟨hp, hnd2⟩ := (utsNodup_cons_iff p _).mp hnd
    rw [List.nil_append] at hp hnd2
    have hne : curr ∉ (if overlapFlag g p prev = true then [prev] else []) := by
      intro hmem
      have : curr = prev := by
        cases hf : overlapFlag g p prev
        · rw [hf] at hmem
          simp at hmem
        · rw [hf] at hmem
          simpa using hmem
      exact ((utsNodup_cons_iff prev _).mp hnd2).1 curr (by simp) (by rw [this])
    have hstep := overlapGo_mem_head g prev curr l2 hnd2
    rw [List.nil_append, overlapGo]
    constructor
    · intro h
      rcases List.mem_append.mp h with h1 | h2
      · exact absurd h1 hne
      · exact hstep.mp h2
    · intro h
      exact List.mem_append.mpr (Or.inr (hstep.mpr h))
  | cons a l1' ih =>
    intro p prev curr l2 hnd
    obtain ⟨hp, hnd2⟩ := (utsNodup_cons_iff p _).mp hnd
    rw [List.cons_append] at hnd2
    have hrec := ih a prev curr l2 hnd2
    obtain ⟨ha, _⟩ := (utsNodup_cons_iff a _).mp hnd2
    have hne : curr ∉ (if overlapFlag g p a = true then [a] else []) := by
      intro hmem
      have : curr = a := by
        cases hf : overlapFlag g p a
        · rw [hf] at hmem
          simp at hmem
        · rw [hf] at hmem
          simpa using hmem
      subst this
      exact ha curr (by simp) rfl
    rw [List.cons_append, overlapGo]
    constructor
    · intro h
      rcases List.mem_append.mp h with h1 | h2
      · exact absurd h1 hne
      · exact hrec.mp h2
    · intro h
      exact List.mem_append.mpr (Or.inr (hrec.mpr h))

/-- Membership in `detectDurationOverlaps` for an event with a designated
chronological predecessor: the decision is made by `overlapFlag` on exactly
that adjacent pair. -/
theorem detectDurationOverlaps_mem (scrobbles : List Scrobble) (g : GetDuration)
    (l1 l2 : List Scrobble) (prev curr : Scrobble)
    (hchrono : scrobbles.reverse = l1 ++ prev :: curr :: l2)
    (hnd : utsNodup scrobbles) :
    curr ∈ detectDurationOverlaps scrobbles g ↔ overlapFlag g prev curr = true := by
  have hndr : utsNodup scrobbles.reverse := (utsNodup_reverse scrobbles).mpr hnd
  rw [detectDurationOverlaps.eq_def, hchrono]
  rw [hchrono] at hndr
  cases l1 with
  | nil =>
    simpa using overlapGo_mem_head g prev curr l2 (by simpa using hndr)
  | cons p l1' =>
    simpa using overlapGo_mem_middle g l1' p prev curr l2 (by simpa using hndr)

end DD

/-- C3: for an adjacent chronological pair with identical artist and track
names, the duration-overlap detector flags the second event exactly when the
lookup knows a non-zero duration and the gap is strictly below 90% of the
duration in seconds (so unknown or zero duration never flags); the first event
of the pair is never flagged on account of this pair — the stream's first event
is never flagged, and any other event's flag is decided solely by the pair it
closes with its own predecessor — all independent of session membership. -/
theorem claim_C3_overlap_pair_rule (scrobbles : List Scrobble) (g : GetDuration)
    (l1 l2 : List Scrobble) (prev curr : Scrobble)
    (hchrono : scrobbles.reverse = l1 ++ prev :: curr :: l2)
    (hnd : utsNodup scrobbles)
    (hartist : prev.artistName = curr.artistName)
    (htrack : prev.trackName = curr.trackName) :
    (curr ∈ DD.detectDurationOverlaps scrobbles g ↔
      ∃ d : Nat, g curr.artistName curr.trackName = some d ∧ d ≠ 0 ∧
        ((curr.uts - prev.uts : Int) : Rat) < (d : Rat) / 1000 * 0.9) ∧
    (l1 = [] → prev ∉ DD.detectDurationOverlaps scrobbles g) ∧
    (∀ (l0 : List Scrobble) (pp : Scrobble), l1 = l0 ++ [pp] →
      (prev ∈ DD.detectDurationOverlaps scrobbles g ↔ DD.overlapFlag g pp prev = true)) := by
  refine ⟨?_, ?_, ?_⟩
  · rw [DD.detectDurationOverlaps_mem scrobbles g l1 l2 prev curr hchrono hnd]
    exact DD.overlapFlag_eq_true_iff g prev curr hartist htrack
  · intro h1nil
    subst h1nil
    have hndr := (utsNodup_reverse scrobbles).mpr hnd
    rw [hchrono] at hndr
    intro hmem
    rw [DD.detectDurationOverlaps.eq_def, hchrono] at hmem
    have hsub := (DD.overlapGo_sublist g prev (curr :: l2)).subset
    exact ((utsNodup_cons_iff prev _).mp hndr).1 prev (hsub hmem) rfl
  · intro l0 pp hsplit
    subst hsplit
    have hchrono2 : scrobbles.reverse = l0 ++ pp :: prev :: (curr :: l2) := by
      simpa [List.append_assoc] using hchrono
    exact DD.detectDurationOverlaps_mem scrobbles g l0 (curr :: l2) pp prev hchrono2 hnd

/-- Witness for C3 at the threshold boundary: with a 200000 ms duration
(180 s at the 90% mark), a same-track pair at gap 180 is not flagged while a
pair at gap 179 is flagged. -/
theorem claim_C3_overlap_pair_rule_witness :
    (⟨"A", "T", 180⟩ : Scrobble) ∉ DD.detectDurationOverlaps
      [⟨"A", "T", 180⟩, ⟨"A", "T", 0⟩] (fun _ _ => some 200000) ∧
    (⟨"A", "T", 179⟩ : Scrobble) ∈ DD.detectDurationOverlaps
      [⟨"A", "T", 179⟩, ⟨"A", "T", 0⟩] (fun _ _ => some 200000) := by
  constructor
  · intro hmem
    have h := (claim_C3_overlap_pair_rule [⟨"A", "T", 180⟩, ⟨"A", "T", 0⟩]
      (fun _ _ => some 200000) [] [] ⟨"A", "T", 0⟩ ⟨"A", "T", 180⟩ rfl
      (by decide) rfl rfl).1.mp hmem
    obtain ⟨d, hd, hd0, hlt⟩ := h
    have hdeq : d = 200000 := (Option.some.inj hd).symm
    subst hdeq
    norm_num at hlt
  · refine (claim_C3_overlap_pair_rule [⟨"A", "T", 179⟩, ⟨"A", "T", 0⟩]
      (fun _ _ => some 200000) [] [] ⟨"A", "T", 0⟩ ⟨"A", "T", 179⟩ rfl
      (by decide) rfl rfl).1.mpr ?_
    exact ⟨200000, rfl, by norm_num, by norm_num⟩

/-- C8: the engine is a pure function of the events, the gap threshold and the
Duration Lookup's answers — two runs with identical events, identical
`gapSeconds` and lookups answering identically on every query return the same
`DetectionResult` (same flagged list, reasons, order, and both counts). -/
theorem claim_C8_determinism (scrobbles : List Scrobble) (gapSeconds : Int)
    (g1 g2 : GetDuration) (h : ∀ a t, g1 a t = g2 a t) :
    DD.detectDuplicates scrobbles gapSeconds g1 = DD.detectDuplicates scrobbles gapSeconds g2 := by
  have hg : g1 = g2 := funext fun a => funext fun t => h a t
  rw [hg]

/-- Witness for C8 at a concrete stream and two syntactically different but
pointwise equal lookups. -/
theorem claim_C8_determinism_witness :
    DD.detectDuplicates [⟨"A", "T", 10⟩, ⟨"A", "T", 0⟩] 1800 (fun _ _ => some 100000) =
    DD.detectDuplicates [⟨"A", "T", 10⟩, ⟨"A", "T", 0⟩] 1800
      (fun a _ => if a = a then some 100000 else none) :=
  claim_C8_determinism [⟨"A", "T", 10⟩, ⟨"A", "T", 0⟩] 1800 _ _ (fun a t => by simp)

theorem readArr_append_left (st : Store) (x : List Scrobble) (r : Nat) (h : r < st.length) :
    readArr (st ++ [x]) r = readArr st r := by
  simp [readArr, List.getElem?_append_left h]

theorem readArr_append_self (st : Store) (x : List Scrobble) :
    readArr (st ++ [x]) st.length = x := by
  simp [readArr, List.getElem?_concat_length]

/-- C9: the detection run does not mutate the caller's array — after
`detectDuplicates` (and after each detector pass) the caller's reference still
holds the same records in the same order; only freshly allocated copies are
reversed, and the store-passing run returns exactly the pure-function result on
the caller's (newest-first) array. -/
theorem claim_C9_no_mutation (st : Store) (r : Nat) (gap : Int) (g : GetDuration)
    (h : r < st.length) :
    readArr (DD.groupIntoSessionsSt st r gap).1 r = readArr st r ∧
    (DD.groupIntoSessionsSt st r gap).2 = DD.groupIntoSessions (readArr st r) gap ∧
    readArr (DD.detectDurationOverlapsSt st r g).1 r = readArr st r ∧
    (DD.detectDurationOverlapsSt st r g).2 = DD.detectDurationOverlaps (readArr st r) g ∧
    readArr (DD.detectIncompleteReplaysSt st r g).1 r = readArr st r ∧
    (DD.detectIncompleteReplaysSt st r g).2 = DD.detectIncompleteReplays (readArr st r) g ∧
    readArr (DD.detectDuplicatesSt st r gap g).1 r = readArr st r ∧
    (DD.detectDuplicatesSt st r gap g).2 = DD.detectDuplicates (readArr st r) gap g := by
  have hgrp : ∀ (st' : Store), r < st'.length → readArr st' r = readArr st r →
      readArr (DD.groupIntoSessionsSt st' r gap).1 r = readArr st r ∧
      r < (DD.groupIntoSessionsSt st' r gap).1.length ∧
      (DD.groupIntoSessionsSt st' r gap).2 = DD.groupIntoSessions (readArr st r) gap := by
    intro st' hr hread
    by_cases h0 : readArr st' r = []
    · rw [DD.groupIntoSessionsSt, if_pos h0]
      rw [← hread]
      exact ⟨rfl, hr, by simp [DD.groupIntoSessions, h0]⟩
    · rw [DD.groupIntoSessionsSt, if_neg h0]
      refine ⟨?_, ?_, ?_⟩
      · rw [spreadReverse]
        rw [readArr_append_left st' _ r hr, hread]
      · simpa [spreadReverse] using Nat.lt_succ_of_lt hr
      · rw [spreadReverse]
        dsimp only
        have hcopy : readArr (st' ++ [(readArr st' r).reverse]) st'.length =
            (readArr st' r).reverse := readArr_append_self st' _
        rw [hcopy, hread, DD.groupIntoSessions, if_neg (by rw [← hread]; exact h0)]
  have hovl : ∀ (st' : Store), r < st'.length → readArr st' r = readArr st r →
      readArr (DD.detectDurationOverlapsSt st' r g).1 r = readArr st r ∧
      r < (DD.detectDurationOverlapsSt st' r g).1.length ∧
      (DD.detectDurationOverlapsSt st' r g).2 = DD.detectDurationOverlaps (readArr st r) g := by
    intro st' hr hread
    rw [DD.detectDurationOverlapsSt]
    refine ⟨?_, ?_, ?_⟩
    · rw [spreadReverse]
      rw [readArr_append_left st' _ r hr, hread]
    · simpa [spreadReverse] using Nat.lt_succ_of_lt hr
    · rw [spreadReverse]
      dsimp only
      have hcopy : readArr (st' ++ [(readArr st' r).reverse]) st'.length =
          (readArr st' r).reverse := readArr_append_self st' _
      rw [hcopy, hread, DD.detectDurationOverlaps.eq_def]
  have hinc : ∀ (st' : Store), r < st'.length → readArr st' r = readArr st r →
      readArr (DD.detectIncompleteReplaysSt st' r g).1 r = readArr st r ∧
      r < (DD.detectIncompleteReplaysSt st' r g).1.length ∧
      (DD.detectIncompleteReplaysSt st' r g).2 = DD.detectIncompleteReplays (readArr st r) g := by
    intro st' hr hread
    by_cases h0 : (readArr st' r).length < 2
    · rw [DD.detectIncompleteReplaysSt, if_pos h0]
      rw [← hread]
      refine ⟨rfl, hr, ?_⟩
      rw [DD.detectIncompleteReplays, if_pos h0]
    · rw [DD.detectIncompleteReplaysSt, if_neg h0]
      refine ⟨?_, ?_, ?_⟩
      · rw [spreadReverse]
        rw [readArr_append_left st' _ r hr, hread]
      · simpa [spreadReverse] using Nat.lt_succ_of_lt hr
      · rw [spreadReverse]
        dsimp only
        have hcopy : readArr (st' ++ [(readArr st' r).reverse]) st'.length =
            (readArr st' r).reverse := readArr_append_self st' _
        rw [hcopy, hread, DD.detectIncompleteReplays, if_neg (by rw [← hread]; exact h0)]
  obtain ⟨hg1, hg2, hg3⟩ := hgrp st h rfl
  obtain ⟨ho1, ho2, ho3⟩ := hovl (DD.groupIntoSessionsSt st r gap).1 hg2 hg1
  obtain ⟨hi1, hi2, hi3⟩ := hinc (DD.detectDurationOverlapsSt
    (DD.groupIntoSessionsSt st r gap).1 r g).1 ho2 ho1
  refine ⟨hg1, hg3, ?_, ?_, ?_, ?_, ?_, ?_⟩
  · exact (hovl st h rfl).1
  · exact (hovl st h rfl).2.2
  · exact (hinc st h rfl).1
  · exact (hinc st h rfl).2.2
  · exact hi1
  · rw [DD.detectDuplicatesSt, DD.detectDuplicates, hg3, ho3, hi3]

theorem sameBool_iff (b a : Scrobble) :
    (b.artistName == a.artistName && b.trackName == a.trackName) = true ↔
      (b.artistName = a.artistName ∧ b.trackName = a.trackName) := by
  simp

theorem utsNodup_append_right (l1 l2 : List Scrobble) (h : utsNodup (l1 ++ l2)) :
    utsNodup l2 := by
  rw [utsNodup, List.map_append] at h
  exact h.of_append_right

theorem utsNodup_append_ne (l1 l2 : List Scrobble) (h : utsNodup (l1 ++ l2)) :
    ∀ x ∈ l1, ∀ y ∈ l2, x.uts ≠ y.uts := by
  rw [utsNodup, List.map_append, List.nodup_append] at h
  intro x hx y hy hEq
  exact h.2.2 (List.mem_map_of_mem _ hx) (by rw [hEq]; exact List.mem_map_of_mem _ hy)

namespace DD

theorem takeRun_join (a : Scrobble) :
    ∀ l : List Scrobble, (takeRun a l).1 ++ (takeRun a l).2 = l := by
  intro l
  induction l with
  | nil => simp [takeRun]
  | cons b bs ih =>
    cases hb : (b.artistName == a.artistName && b.trackName == a.trackName)
    · simp [takeRun, hb]
    · simpa [takeRun, hb] using ih

theorem takeRun_sound (a : Scrobble) :
    ∀ l : List Scrobble,
      (∀ x ∈ (takeRun a l).1, x.artistName = a.artistName ∧ x.trackName = a.trackName) ∧
      (∀ q, (takeRun a l).2.head? = some q →
        ¬(q.artistName = a.artistName ∧ q.trackName = a.trackName)) := by
  intro l
  induction l with
  | nil => simp [takeRun]
  | cons b bs ih =>
    cases hb : (b.artistName == a.artistName && b.trackName == a.trackName)
    · refine ⟨by simp [takeRun, hb], ?_⟩
      intro q hq
      rw [takeRun] at hq
      rw [if_neg (by simp [hb])] at hq
      simp at hq
      subst hq
      intro hcontra
      rw [← sameBool_iff] at hcontra
      rw [hb] at hcontra
      exact Bool.false_ne_true hcontra
    · refine ⟨?_, ?_⟩
      · intro x hx
        rw [takeRun, if_pos hb] at hx
        rcases List.mem_cons.mp hx with hEq | hMem
        · subst hEq
          exact (sameBool_iff x a).mp hb
        · exact ih.1 x hMem
      · intro q hq
        rw [takeRun, if_pos hb] at hq
        exact ih.2 q hq

theorem takeRun_eq (a : Scrobble) :
    ∀ (t post : List Scrobble),
      (∀ x ∈ t, x.artistName = a.artistName ∧ x.trackName = a.trackName) →
      (∀ q, post.head? = some q →
        ¬(q.artistName = a.artistName ∧ q.trackName = a.trackName)) →
      takeRun a (t ++ post) = (t, post) := by
  intro t
  induction t with
  | nil =>
    intro post _ hpost
    cases post with
    | nil => simp [takeRun]
    | cons q qs =>
      have hq := hpost q rfl
      rw [List.nil_append, takeRun]
      rw [if_neg ?_]
      intro hb
      exact hq ((sameBool_iff q a).mp hb)
  | cons b bs ih =>
    intro post ht hpost
    have hb : (b.artistName == a.artistName && b.trackName == a.trackName) = true :=
      (sameBool_iff b a).mpr (ht b (by simp))
    rw [List.cons_append, takeRun, if_pos hb,
      ih post (fun x hx => ht x (by simp [hx])) hpost]

theorem incompleteGo_nil (g : GetDuration) : incompleteGo g [] = [] := by
  rw [incompleteGo]

theorem incompleteGo_cons (g : GetDuration) (a : Scrobble) (rest : List Scrobble) :
    incompleteGo g (a :: rest) =
      runFlags g (a :: (takeRun a rest).1) (takeRun a rest).2.head? ++
        incompleteGo g (takeRun a rest).2 := by
  rw [incompleteGo]

theorem keepFlags_sublist :
    ∀ (run : List Scrobble) (flags : List Bool), List.Sublist (keepFlags run flags) run := by
  intro run
  induction run with
  | nil => intro flags; cases flags <;> simp [keepFlags]
  | cons x xs ih =>
    intro flags
    cases flags with
    | nil => simp [keepFlags]
    | cons b bs =>
      rw [keepFlags]
      cases b
      · simpa using (ih bs).cons₂ x
      · simpa using (ih bs).cons x

theorem keepFlags_append (l1 : List Scrobble) (f1 : List Bool) :
    ∀ (l2 : List Scrobble) (f2 : List Bool), l1.length = f1.length →
      keepFlags (l1 ++ l2) (f1 ++ f2) = keepFlags l1 f1 ++ keepFlags l2 f2 := by
  induction l1 generalizing f1 with
  | nil =>
    intro l2 f2 hlen
    have : f1 = [] := by
      cases f1
      · rfl
      · simp at hlen
    subst this
    simp [keepFlags]
  | cons x xs ih =>
    intro l2 f2 hlen
    cases f1 with
    | nil => simp at hlen
    | cons b bs =>
      rw [List.cons_append, List.cons_append, keepFlags, keepFlags,
        ih bs l2 f2 (by simpa using hlen), List.append_assoc]

theorem processRun_sublist (run : List Scrobble) (next? : Option Scrobble) (d : Nat) :
    List.Sublist (processRun run next? d) run := by
  rw [processRun]
  by_cases h : (completedFlags d next? run).any (fun b => b) = true
  · rw [if_pos h]
    exact keepFlags_sublist run _
  · rw [if_neg h]
    exact List.tail_sublist run

theorem runFlags_sublist (g : GetDuration) (run : List Scrobble) (next? : Option Scrobble) :
    List.Sublist (runFlags g run next?) run := by
  match run with
  | [] => simp [runFlags]
  | [x] => simp [runFlags]
  | r0 :: r1 :: rs =>
    rw [runFlags]
    cases g r0.artistName r0.trackName with
    | none => simp
    | some d =>
      dsimp only
      by_cases hd : 0 < d
      · rw [if_pos hd]
        exact processRun_sublist _ _ _
      · rw [if_neg hd]
        simp

theorem incompleteGo_sublist_aux (g : GetDuration) :
    ∀ (n : Nat) (l : List Scrobble), l.length ≤ n → List.Sublist (incompleteGo g l) l := by
  intro n
  induction n with
  | zero =>
    intro l hl
    have : l = [] := List.length_eq_zero.mp (Nat.le_zero.mp hl)
    subst this
    simp [incompleteGo_nil]
  | succ n ih =>
    intro l hl
    cases l with
    | nil => simp [incompleteGo_nil]
    | cons a rest =>
      rw [incompleteGo_cons]
      have hjoin := takeRun_join a rest
      have hlen2 : (takeRun a rest).2.length ≤ n := by
        have hsum : (takeRun a rest).1.length + (takeRun a rest).2.length = rest.length := by
          rw [← List.length_append, hjoin]
        have hrl : rest.length + 1 ≤ n + 1 := by simpa using hl
        omega
      have h1 : List.Sublist (runFlags g (a :: (takeRun a rest).1) (takeRun a rest).2.head?)
          (a :: (takeRun a rest).1) := runFlags_sublist g _ _
      have h2 : List.Sublist (incompleteGo g (takeRun a rest).2) (takeRun a rest).2 :=
        ih (takeRun a rest).2 hlen2
      have h3 := h1.append h2
      rw [List.cons_append, hjoin] at h3
      exact h3

theorem incompleteGo_sublist (g : GetDuration) (l : List Scrobble) :
    List.Sublist (incompleteGo g l) l :=
  incompleteGo_sublist_aux g l.length l (Nat.le_refl _)

theorem completedFlags_length (d : Nat) (next? : Option Scrobble) :
    ∀ run : List Scrobble, (completedFlags d next? run).length = run.length := by
  intro run
  induction run with
  | nil => simp [completedFlags]
  | cons x xs ih =>
    cases xs with
    | nil => cases next? <;> simp [completedFlags]
    | cons y ys =>
      rw [completedFlags]
      simpa using ih

theorem completedFlags_none_concat (d : Nat) :
    ∀ run : List Scrobble, run ≠ [] →
      ∃ bs : List Bool, completedFlags d none run = bs ++ [true] := by
  intro run
  induction run with
  | nil => intro h; exact absurd rfl h
  | cons x xs ih =>
    intro _
    cases xs with
    | nil => exact ⟨[], by simp [completedFlags]⟩
    | cons y ys =>
      obtain ⟨bs, hbs⟩ := ih (by simp)
      refine ⟨decide (((y.uts - x.uts : Int) : Rat) ≥ (d : Rat) / 1000 * 0.9) :: bs, ?_⟩
      rw [completedFlags, hbs]
      simp

theorem processRun_none_not_last (d : Nat) (run1 : List Scrobble) (z : Scrobble)
    (hnd : utsNodup (run1 ++ [z])) :
    ∀ x ∈ processRun (run1 ++ [z]) none d, x.uts ≠ z.uts := by
  obtain ⟨bs, hbs⟩ := completedFlags_none_concat d (run1 ++ [z]) (by simp)
  have hlenb : run1.length = bs.length := by
    have h1 := completedFlags_length d none (run1 ++ [z])
    rw [hbs] at h1
    simp at h1
    omega
  intro x hx
  rw [processRun] at hx
  rw [hbs] at hx
  rw [if_pos (by simp)] at hx
  rw [keepFlags_append run1 bs [z] [true] hlenb] at hx
  have hone : keepFlags [z] [true] = [] := by simp [keepFlags]
  rw [hone, List.append_nil] at hx
  exact utsNodup_append_ne run1 [z] hnd x ((keepFlags_sublist run1 bs).subset hx) z (by simp)

theorem runFlags_mem_processRun (g : GetDuration) (run : List Scrobble)
    (next? : Option Scrobble) (x : Scrobble) (hx : x ∈ runFlags g run next?) :
    ∃ d, x ∈ processRun run next? d := by
  match run with
  | [] => simp [runFlags] at hx
  | [r] => simp [runFlags] at hx
  | r0 :: r1 :: rs =>
    rw [runFlags] at hx
    cases hg : g r0.artistName r0.trackName with
    | none =>
      rw [hg] at hx
      simp at hx
    | some d =>
      rw [hg] at hx
      dsimp only at hx
      by_cases hd : 0 < d
      · rw [if_pos hd] at hx
        exact ⟨d, hx⟩
      · rw [if_neg hd] at hx
        simp at hx

theorem incompleteGo_not_last_aux (g : GetDuration) :
    ∀ (n : Nat) (l : List Scrobble), l.length ≤ n → utsNodup l →
      ∀ z, l.getLast? = some z → ∀ x ∈ incompleteGo g l, x.uts ≠ z.uts := by
  intro n
  induction n with
  | zero =>
    intro l hl _ z _ x hx
    have hnil : l = [] := List.length_eq_zero.mp (Nat.le_zero.mp hl)
    subst hnil
    simp [incompleteGo_nil] at hx
  | succ n ih =>
    intro l hl hnd z hz x hx
    cases l with
    | nil => simp [incompleteGo_nil] at hx
    | cons a rest =>
      rw [incompleteGo_cons] at hx
      have hjoin := takeRun_join a rest
      have hla : a :: rest = (a :: (takeRun a rest).1) ++ (takeRun a rest).2 := by
        rw [List.cons_append, hjoin]
      rcases List.mem_append.mp hx with hx1 | hx2
      · cases hrest2 : (takeRun a rest).2 with
        | nil =>
          rw [hrest2] at hx1
          obtain ⟨d, hxp⟩ := runFlags_mem_processRun g _ _ x hx1
          obtain ⟨ys, hys⟩ := List.getLast?_eq_some_iff.mp hz
          have hrun : a :: (takeRun a rest).1 = ys ++ [z] := by
            rw [← hys, hla, hrest2, List.append_nil]
          rw [hrun] at hxp
          have hrest : a :: rest = a :: (takeRun a rest).1 := by
            rw [hla, hrest2, List.append_nil]
          have hndr : utsNodup (ys ++ [z]) := by
            rw [← hrun, ← hrest]
            exact hnd
          exact processRun_none_not_last d ys z hndr x hxp
        | cons q qs =>
          have hxrun : x ∈ a :: (takeRun a rest).1 := (runFlags_sublist g _ _).subset hx1
          have hzmem : z ∈ (takeRun a rest).2 := by
            refine List.mem_of_getLast?_eq_some ?_
            rw [hla, List.getLast?_append, hrest2] at hz
            rw [hrest2]
            cases hql : (q :: qs).getLast? with
            | none => simp at hql
            | some w =>
              rw [hql] at hz
              simpa using hz
          have hndw : utsNodup ((a :: (takeRun a rest).1) ++ (takeRun a rest).2) := by
            rw [← hla]
            exact hnd
          exact utsNodup_append_ne _ _ hndw x hxrun z hzmem
      · have hlen2 : (takeRun a rest).2.length ≤ n := by
          have hsum : (takeRun a rest).1.length + (takeRun a rest).2.length = rest.length := by
            rw [← List.length_append, hjoin]
          have hrl : rest.length + 1 ≤ n + 1 := by simpa using hl
          omega
        have hnd2 : utsNodup (takeRun a rest).2 := by
          have := hnd
          rw [hla] at this
          exact utsNodup_append_right _ _ this
        cases hrest2 : (takeRun a rest).2 with
        | nil =>
          rw [hrest2] at hx2
          simp [incompleteGo_nil] at hx2
        | cons q qs =>
          have hz2 : (takeRun a rest).2.getLast? = some z := by
            rw [hla, List.getLast?_append, hrest2] at hz
            rw [hrest2]
            cases hql : (q :: qs).getLast? with
            | none => simp at hql
            | some w =>
              rw [hql] at hz
              simpa using hz
          exact ih (takeRun a rest).2 hlen2 hnd2 z hz2 x hx2

theorem incompleteGo_not_last (g : GetDuration) (l : List Scrobble) (hnd : utsNodup l)
    (z : Scrobble) (hz : l.getLast? = some z) :
    ∀ x ∈ incompleteGo g l, x.uts ≠ z.uts :=
  incompleteGo_not_last_aux g l.length l (Nat.le_refl _) hnd z hz

theorem predRun_true (run : List Scrobble) (x : Scrobble) (hx : x ∈ run) :
    (run.any (fun y => y.uts == x.uts)) = true :=
  List.any_eq_true.mpr ⟨x, hx, by simp⟩

/-- Restricting the run-detector output of a stream that begins with a maximal
run to that run keeps exactly the run's own flags. -/
theorem incompleteGo_run_base (g : GetDuration) (r0 : Scrobble) (rtail post : List Scrobble)
    (hnd : utsNodup ((r0 :: rtail) ++ post))
    (hsame : ∀ x ∈ rtail, x.artistName = r0.artistName ∧ x.trackName = r0.trackName)
    (hpost : ∀ q, post.head? = some q →
      ¬(q.artistName = r0.artistName ∧ q.trackName = r0.trackName)) :
    (incompleteGo g ((r0 :: rtail) ++ post)).filter
        (fun x => (r0 :: rtail).any (fun y => y.uts == x.uts)) =
      runFlags g (r0 :: rtail) post.head? := by
  rw [List.cons_append, incompleteGo_cons, takeRun_eq r0 rtail post hsame hpost]
  dsimp only
  rw [List.filter_append]
  have h1 : (runFlags g (r0 :: rtail) post.head?).filter
      (fun x => (r0 :: rtail).any (fun y => y.uts == x.uts)) =
      runFlags g (r0 :: rtail) post.head? := by
    rw [List.filter_eq_self]
    intro x hx
    exact predRun_true _ x ((runFlags_sublist g _ _).subset hx)
  have h2 : (incompleteGo g post).filter
      (fun x => (r0 :: rtail).any (fun y => y.uts == x.uts)) = [] := by
    rw [List.filter_eq_nil_iff]
    intro x hx hpredx
    obtain ⟨y, hy, hbe⟩ := List.any_eq_true.mp hpredx
    exact utsNodup_append_ne _ _ hnd y hy x
      ((incompleteGo_sublist g post).subset hx) (by simpa using hbe)
  rw [h1, h2, List.append_nil]

theorem incompleteGo_run_filter_aux (g : GetDuration) :
    ∀ (n : Nat) (pre : List Scrobble) (r0 : Scrobble) (rtail post : List Scrobble),
      pre.length ≤ n →
      utsNodup (pre ++ (r0 :: rtail) ++ post) →
      (∀ x ∈ rtail, x.artistName = r0.artistName ∧ x.trackName = r0.trackName) →
      (∀ p, pre.getLast? = some p →
        ¬(p.artistName = r0.artistName ∧ p.trackName = r0.trackName)) →
      (∀ q, post.head? = some q →
        ¬(q.artistName = r0.artistName ∧ q.trackName = r0.trackName)) →
      (incompleteGo g (pre ++ (r0 :: rtail) ++ post)).filter
          (fun x => (r0 :: rtail).any (fun y => y.uts == x.uts)) =
        runFlags g (r0 :: rtail) post.head? := by
  intro n
  induction n with
  | zero =>
    intro pre r0 rtail post hl hnd hsame _ hpost
    have hnil : pre = [] := List.length_eq_zero.mp (Nat.le_zero.mp hl)
    subst hnil
    rw [List.nil_append]
    exact incompleteGo_run_base g r0 rtail post (by simpa using hnd) hsame hpost
  | succ n ih =>
    intro pre r0 rtail post hl hnd hsame hpre hpost
    cases pre with
    | nil =>
      rw [List.nil_append]
      exact incompleteGo_run_base g r0 rtail post (by simpa using hnd) hsame hpost
    | cons p0 ptail =>
      have hgoalEq : (p0 :: ptail) ++ (r0 :: rtail) ++ post =
          p0 :: (ptail ++ (r0 :: rtail) ++ post) := by simp
      rw [hgoalEq, incompleteGo_cons]
      obtain ⟨t1, rest1, hTR⟩ : ∃ t1 rest1,
          takeRun p0 (ptail ++ (r0 :: rtail) ++ post) = (t1, rest1) := ⟨_, _, rfl⟩
      rw [hTR]
      dsimp only
      have hjoin : t1 ++ rest1 = ptail ++ (r0 :: rtail) ++ post := by
        have h := takeRun_join p0 (ptail ++ (r0 :: rtail) ++ post)
        rw [hTR] at h
        exact h
      have hsound := takeRun_sound p0 (ptail ++ (r0 :: rtail) ++ post)
      rw [hTR] at hsound
      have hsplitEq : t1 ++ rest1 = ptail ++ ((r0 :: rtail) ++ post) := by
        rw [hjoin, List.append_assoc]
      obtain ⟨a2, ha2, hrest1⟩ : ∃ a2, ptail = t1 ++ a2 ∧
          rest1 = a2 ++ ((r0 :: rtail) ++ post) := by
        rcases List.append_eq_append_iff.mp hsplitEq with ⟨a2, hx1, hx2⟩ | ⟨c2, hx1, hx2⟩
        · exact ⟨a2, hx1, hx2⟩
        · cases c2 with
          | nil =>
            refine ⟨[], ?_, ?_⟩
            · simp [hx1]
            · simpa using hx2.symm
          | cons w ws =>
            exfalso
            have hw : r0 = w := by
              have hh := congrArg List.head? hx2
              simpa using hh
            have hwt1 : w ∈ t1 := by
              rw [hx1]
              simp
            have hkeyW := hsound.1 w hwt1
            have hkeyR : r0.artistName = p0.artistName ∧ r0.trackName = p0.trackName := by
              rw [hw]
              exact hkeyW
            cases hpt : ptail with
            | nil =>
              refine hpre p0 ?_ ⟨hkeyR.1.symm, hkeyR.2.symm⟩
              rw [hpt]
              rfl
            | cons u us =>
              have hne2 : u :: us ≠ ([] : List Scrobble) := by simp
              have hlastp : (p0 :: ptail).getLast? = some ((u :: us).getLast hne2) := by
                rw [hpt, List.getLast?_cons_cons]
                exact List.getLast?_eq_getLast _ hne2
              have hplmem : (u :: us).getLast hne2 ∈ ptail := by
                rw [hpt]
                exact List.getLast_mem hne2
              have hplt1 : (u :: us).getLast hne2 ∈ t1 := by
                rw [hx1]
                exact List.mem_append.mpr (Or.inl hplmem)
              have hkeyPl := hsound.1 _ hplt1
              exact hpre _ hlastp
                ⟨hkeyPl.1.trans hkeyR.1.symm, hkeyPl.2.trans hkeyR.2.symm⟩
      rw [hrest1, List.filter_append]
      have hpre_decomp : p0 :: ptail = (p0 :: t1) ++ a2 := by
        rw [List.cons_append, ha2]
      have hnd1 : utsNodup ((p0 :: ptail) ++ ((r0 :: rtail) ++ post)) := by
        rw [← List.append_assoc]
        exact hnd
      have h1 : (runFlags g (p0 :: t1) (a2 ++ ((r0 :: rtail) ++ post)).head?).filter
          (fun x => (r0 :: rtail).any (fun y => y.uts == x.uts)) = [] := by
        rw [List.filter_eq_nil_iff]
        intro x hx hpredx
        obtain ⟨y, hy, hbe⟩ := List.any_eq_true.mp hpredx
        have hxpre : x ∈ p0 :: ptail := by
          rw [hpre_decomp]
          exact List.mem_append.mpr (Or.inl ((runFlags_sublist g _ _).subset hx))
        have hyx : y.uts = x.uts := by simpa using hbe
        exact utsNodup_append_ne _ _ hnd1 x hxpre y
          (List.mem_append.mpr (Or.inl hy)) hyx.symm
      have hlenA : a2.length ≤ n := by
        have hl2 : ptail.length + 1 ≤ n + 1 := by simpa using hl
        have hlen3 := congrArg List.length ha2
        rw [List.length_append] at hlen3
        omega
      have hndA : utsNodup (a2 ++ (r0 :: rtail) ++ post) := by
        have hstep1 : utsNodup (ptail ++ ((r0 :: rtail) ++ post)) :=
          ((utsNodup_cons_iff p0 (ptail ++ ((r0 :: rtail) ++ post))).mp hnd1).2
        rw [ha2, List.append_assoc] at hstep1
        rw [List.append_assoc]
        exact utsNodup_append_right t1 _ hstep1
      have hpreA : ∀ p, a2.getLast? = some p →
          ¬(p.artistName = r0.artistName ∧ p.trackName = r0.trackName) := by
        intro p hp
        refine hpre p ?_
        rw [hpre_decomp, List.getLast?_append, hp]
        rfl
      have h2 := ih a2 r0 rtail post hlenA hndA hsame hpreA hpost
      rw [List.append_assoc] at h2
      rw [h1, List.nil_append]
      exact h2

theorem incompleteGo_run_filter (g : GetDuration) (pre : List Scrobble) (r0 : Scrobble)
    (rtail post : List Scrobble)
    (hnd : utsNodup (pre ++ (r0 :: rtail) ++ post))
    (hsame : ∀ x ∈ rtail, x.artistName = r0.artistName ∧ x.trackName = r0.trackName)
    (hpre : ∀ p, pre.getLast? = some p →
      ¬(p.artistName = r0.artistName ∧ p.trackName = r0.trackName))
    (hpost : ∀ q, post.head? = some q →
      ¬(q.artistName = r0.artistName ∧ q.trackName = r0.trackName)) :
    (incompleteGo g (pre ++ (r0 :: rtail) ++ post)).filter
        (fun x => (r0 :: rtail).any (fun y => y.uts == x.uts)) =
      runFlags g (r0 :: rtail) post.head? :=
  incompleteGo_run_filter_aux g pre.length pre r0 rtail post (Nat.le_refl _)
    hnd hsame hpre hpost

end DD

/-- C2: for every maximal run of consecutive same-track events of the
chronological stream (the run's tail shares the first event's names, the event
before the run and the event after it name a different track), the
incomplete-replay detector's flags restricted to the run are exactly
`DD.runFlags` of the run: nothing for a run of length 1 or an unknown or
non-positive duration, and otherwise — with an event counted completed when
its gap to the immediately following stream event reaches 90% of the duration
in seconds, the globally-last stream event (`post = []` and last in run)
always counted completed — exactly the non-completed events if any run event
is completed, and every run event except the first if none is. -/
theorem claim_C2_incomplete_run_rule (scrobbles : List Scrobble) (g : GetDuration)
    (pre rtail post : List Scrobble) (r0 : Scrobble)
    (hchrono : scrobbles.reverse = pre ++ (r0 :: rtail) ++ post)
    (hnd : utsNodup scrobbles)
    (hsame : ∀ x ∈ rtail, x.artistName = r0.artistName ∧ x.trackName = r0.trackName)
    (hpre : ∀ p, pre.getLast? = some p →
      ¬(p.artistName = r0.artistName ∧ p.trackName = r0.trackName))
    (hpost : ∀ q, post.head? = some q →
      ¬(q.artistName = r0.artistName ∧ q.trackName = r0.trackName)) :
    (DD.detectIncompleteReplays scrobbles g).filter
        (fun x => (r0 :: rtail).any (fun y => y.uts == x.uts)) =
      DD.runFlags g (r0 :: rtail) post.head? := by
  rw [DD.detectIncompleteReplays]
  by_cases hlen : scrobbles.length < 2
  · rw [if_pos hlen]
    have hlenrev : scrobbles.reverse.length < 2 := by simpa using hlen
    rw [hchrono] at hlenrev
    simp [List.length_append] at hlenrev
    obtain ⟨hr, hq⟩ : rtail = [] ∧ post = [] := by
      constructor
      · exact List.length_eq_zero.mp (by omega)
      · exact List.length_eq_zero.mp (by omega)
    subst hr
    subst hq
    simp [DD.runFlags]
  · rw [if_neg hlen, hchrono]
    have hndr : utsNodup (pre ++ (r0 :: rtail) ++ post) := by
      rw [← hchrono]
      exact (utsNodup_reverse scrobbles).mpr hnd
    exact DD.incompleteGo_run_filter g pre r0 rtail post hndr hsame hpre hpost

/-- Witness for C2 (the spec's mixed-completion scenario): the same-track run
at `t = 0, 30, 250` with a 200-second duration flags exactly the event at
`t = 0` — `t = 30` completed (gap 220 ≥ 180), `t = 250` is the stream's last
event, and `t = 0` was cut short (gap 30 < 180). -/
theorem claim_C2_incomplete_run_rule_witness :
    (DD.detectIncompleteReplays [⟨"A", "T", 250⟩, ⟨"A", "T", 30⟩, ⟨"A", "T", 0⟩]
        (fun _ _ => some 200000)).filter
        (fun x => ([⟨"A", "T", 0⟩, ⟨"A", "T", 30⟩, ⟨"A", "T", 250⟩] : List Scrobble).any
          (fun y => y.uts == x.uts)) =
      DD.runFlags (fun _ _ => some 200000)
        [⟨"A", "T", 0⟩, ⟨"A", "T", 30⟩, ⟨"A", "T", 250⟩] none ∧
    DD.runFlags (fun _ _ => some 200000)
      [⟨"A", "T", 0⟩, ⟨"A", "T", 30⟩, ⟨"A", "T", 250⟩] none = [⟨"A", "T", 0⟩] := by
  constructor
  · exact claim_C2_incomplete_run_rule
      [⟨"A", "T", 250⟩, ⟨"A", "T", 30⟩, ⟨"A", "T", 0⟩] (fun _ _ => some 200000)
      [] [⟨"A", "T", 30⟩, ⟨"A", "T", 250⟩] [] ⟨"A", "T", 0⟩
      (by decide) (by decide) (by decide)
      (by intro p hp; simp at hp) (by intro q hq; simp at hq)
  · simp +decide [DD.runFlags, DD.processRun, DD.completedFlags, DD.keepFlags]
    norm_num

namespace DD

theorem foldl_mergeStep1 (durUts : List Int) :
    ∀ (l : List Scrobble) (seen : List Int) (fl : List FlaggedDuplicate),
      (l.foldl (mergeStep1 durUts) (seen, fl)).2 =
        fl ++ l.map (fun s =>
          (⟨s, if s.uts ∈ durUts then Reason.both else Reason.sessionReplay⟩ :
            FlaggedDuplicate)) ∧
      ∀ u : Int, u ∈ (l.foldl (mergeStep1 durUts) (seen, fl)).1 ↔
        u ∈ seen ∨ u ∈ l.map (fun s => s.uts) := by
  intro l
  induction l with
  | nil =>
    intro seen fl
    simp
  | cons a l ih =>
    intro seen fl
    rw [List.foldl_cons]
    have hstep : mergeStep1 durUts (seen, fl) a =
        (a.uts :: seen,
          fl ++ [⟨a, if a.uts ∈ durUts then Reason.both else Reason.sessionReplay⟩]) := rfl
    rw [hstep]
    obtain ⟨ih1, ih2⟩ := ih (a.uts :: seen)
      (fl ++ [⟨a, if a.uts ∈ durUts then Reason.both else Reason.sessionReplay⟩])
    constructor
    · rw [ih1, List.append_assoc]
      rfl
    · intro u
      rw [ih2 u]
      simp [List.mem_cons]
      tauto

theorem foldl_mergeStepNew (r : Reason) :
    ∀ (l : List Scrobble) (seen : List Int) (fl : List FlaggedDuplicate),
      (l.map (fun s => s.uts)).Nodup →
      ((l.foldl (mergeStepNew r) (seen, fl)).2 =
        fl ++ (l.filter (fun s => decide (s.uts ∉ seen))).map
          (fun s => (⟨s, r⟩ : FlaggedDuplicate)) ∧
      ∀ u : Int, u ∈ (l.foldl (mergeStepNew r) (seen, fl)).1 ↔
        u ∈ seen ∨ u ∈ l.map (fun s => s.uts)) := by
  intro l
  induction l with
  | nil =>
    intro seen fl _
    simp
  | cons a l ih =>
    intro seen fl hnd
    rw [List.foldl_cons]
    have hndl : (l.map (fun s => s.uts)).Nodup := (List.nodup_cons.mp (by simpa using hnd)).2
    have hane : a.uts ∉ l.map (fun s => s.uts) := (List.nodup_cons.mp (by simpa using hnd)).1
    by_cases hmem : a.uts ∈ seen
    · have hstep : mergeStepNew r (seen, fl) a = (seen, fl) := by
        rw [mergeStepNew, if_pos hmem]
      rw [hstep]
      obtain ⟨ih1, ih2⟩ := ih seen fl hndl
      constructor
      · rw [ih1, List.filter_cons, if_neg (by simpa using hmem)]
      · intro u
        rw [ih2 u]
        simp only [List.map_cons, List.mem_cons]
        constructor
        · tauto
        · rintro (h | h | h)
          · exact Or.inl h
          · subst h
            exact Or.inl hmem
          · exact Or.inr h
    · have hstep : mergeStepNew r (seen, fl) a = (a.uts :: seen, fl ++ [⟨a, r⟩]) := by
        rw [mergeStepNew, if_neg hmem]
      rw [hstep]
      obtain ⟨ih1, ih2⟩ := ih (a.uts :: seen) (fl ++ [⟨a, r⟩]) hndl
      constructor
      · rw [ih1]
        have hcong : List.filter (fun s => decide (s.uts ∉ a.uts :: seen)) l =
            List.filter (fun s => decide (s.uts ∉ seen)) l := by
          apply List.filter_congr
          intro s hs
          have hsa : s.uts ≠ a.uts := by
            intro hEq
            exact hane (hEq ▸ List.mem_map_of_mem _ hs)
          simp [List.mem_cons, hsa]
        rw [hcong, List.filter_cons, if_pos (by simpa using hmem), List.append_assoc]
        rfl
      · intro u
        rw [ih2 u]
        simp only [List.map_cons, List.mem_cons]
        tauto

end DD

namespace DDC

theorem foldl_mergeStepOld (r : Reason) :
    ∀ (l : List Scrobble) (seen : List Int) (fl : List FlaggedDuplicate),
      (l.foldl (mergeStepOld r) (seen, fl)).2 =
        fl ++ (l.filter (fun s => decide (s.uts ∉ seen))).map
          (fun s => (⟨s, r⟩ : FlaggedDuplicate)) ∧
      (l.foldl (mergeStepOld r) (seen, fl)).1 = seen := by
  intro l
  induction l with
  | nil =>
    intro seen fl
    simp
  | cons a l ih =>
    intro seen fl
    rw [List.foldl_cons]
    by_cases hmem : a.uts ∈ seen
    · have hstep : mergeStepOld r (seen, fl) a = (seen, fl) := by
        rw [mergeStepOld, if_pos hmem]
      rw [hstep]
      obtain ⟨ih1, ih2⟩ := ih seen fl
      exact ⟨by rw [ih1, List.filter_cons, if_neg (by simpa using hmem)], ih2⟩
    · have hstep : mergeStepOld r (seen, fl) a = (seen, fl ++ [⟨a, r⟩]) := by
        rw [mergeStepOld, if_neg hmem]
      rw [hstep]
      obtain ⟨ih1, ih2⟩ := ih seen (fl ++ [⟨a, r⟩])
      refine ⟨?_, ih2⟩
      rw [ih1, List.filter_cons, if_pos (by simpa using hmem), List.append_assoc]
      rfl

end DDC

namespace DD

theorem detectDurationOverlaps_sublist (scrobbles : List Scrobble) (g : GetDuration) :
    List.Sublist (detectDurationOverlaps scrobbles g) scrobbles.reverse := by
  rw [detectDurationOverlaps.eq_def]
  cases hrev : scrobbles.reverse with
  | nil => simp
  | cons c rest => exact (overlapGo_sublist g c rest).cons c

theorem detectIncompleteReplays_sublist (scrobbles : List Scrobble) (g : GetDuration) :
    List.Sublist (detectIncompleteReplays scrobbles g) scrobbles.reverse := by
  rw [detectIncompleteReplays]
  by_cases h : scrobbles.length < 2
  · rw [if_pos h]
    exact List.nil_sublist _
  · rw [if_neg h]
    exact incompleteGo_sublist g _

theorem detectSessionReplay_sub (before after : List Scrobble) :
    List.Sublist (detectSessionReplay before after) after.head?.toList := by
  rw [detectSessionReplay.eq_def]
  cases hb : before.getLast? with
  | none => cases ha : after.head? <;> simp
  | some lastT =>
    cases ha : after.head? with
    | none => simp
    | some f =>
      dsimp only
      split
      · simp
      · simp

theorem headsOf_sublist : ∀ ss : List (List Scrobble),
    List.Sublist (ss.filterMap List.head?) ss.flatten := by
  intro ss
  induction ss with
  | nil => simp
  | cons s ss ih =>
    cases s with
    | nil =>
      rw [List.filterMap_cons_none (by rfl), List.flatten_cons, List.nil_append]
      exact ih
    | cons x xs =>
      rw [List.filterMap_cons_some (by rfl), List.flatten_cons, List.cons_append]
      exact (ih.trans (List.sublist_append_right xs _)).cons₂ x

theorem replayFlagsOf_sub : ∀ sessions : List (List Scrobble),
    List.Sublist (replayFlagsOf sessions) (sessions.tail.filterMap List.head?) := by
  intro sessions
  induction sessions with
  | nil => simp [replayFlagsOf]
  | cons s ss ih =>
    cases ss with
    | nil => simp [replayFlagsOf]
    | cons s2 ss2 =>
      have hz : replayFlagsOf (s :: s2 :: ss2) =
          detectSessionReplay s s2 ++ replayFlagsOf (s2 :: ss2) := by
        rw [replayFlagsOf, replayFlagsOf]
        rfl
      rw [hz]
      have hsd := detectSessionReplay_sub s s2
      cases hs2 : s2.head? with
      | none =>
        rw [hs2] at hsd
        have hnil : detectSessionReplay s s2 = [] := List.sublist_nil.mp (by simpa using hsd)
        rw [hnil, List.nil_append]
        have htail : (s :: s2 :: ss2).tail.filterMap List.head? =
            ss2.filterMap List.head? := by
          simp [List.filterMap_cons_none hs2]
        rw [htail]
        simpa using ih
      | some x =>
        rw [hs2] at hsd
        have htail : (s :: s2 :: ss2).tail.filterMap List.head? =
            x :: ss2.filterMap List.head? := by
          simp [List.filterMap_cons_some hs2]
        rw [htail]
        have hrec : List.Sublist (replayFlagsOf (s2 :: ss2)) (ss2.filterMap List.head?) := by
          simpa using ih
        have := hsd.append hrec
        simpa using this

end DD

namespace DDC

theorem detectSessionReplay_subChecked (before after : List Scrobble) (g : GetDuration) :
    List.Sublist (detectSessionReplay before after g) after.head?.toList := by
  rw [detectSessionReplay.eq_def]
  cases hb : before.getLast? with
  | none => cases after <;> simp
  | some lastT =>
    cases after with
    | nil => simp
    | cons f rest =>
      dsimp only
      split
      · simp
      · cases rest with
        | nil => simp
        | cons nt r2 =>
          dsimp only
          cases g f.artistName f.trackName with
          | none => simp
          | some d =>
            dsimp only
            split
            · simp
            · split
              · simp
              · simp

theorem replayFlagsOf_subChecked (g : GetDuration) : ∀ sessions : List (List Scrobble),
    List.Sublist (replayFlagsOf sessions g) (sessions.tail.filterMap List.head?) := by
  intro sessions
  induction sessions with
  | nil => simp [replayFlagsOf]
  | cons s ss ih =>
    cases ss with
    | nil => simp [replayFlagsOf]
    | cons s2 ss2 =>
      have hz : replayFlagsOf (s :: s2 :: ss2) g =
          detectSessionReplay s s2 g ++ replayFlagsOf (s2 :: ss2) g := by
        rw [replayFlagsOf, replayFlagsOf]
        rfl
      rw [hz]
      have hsd := detectSessionReplay_subChecked s s2 g
      cases hs2 : s2.head? with
      | none =>
        rw [hs2] at hsd
        have hnil : detectSessionReplay s s2 g = [] := List.sublist_nil.mp (by simpa using hsd)
        rw [hnil, List.nil_append]
        have htail : (s :: s2 :: ss2).tail.filterMap List.head? =
            ss2.filterMap List.head? := by
          simp [List.filterMap_cons_none hs2]
        rw [htail]
        simpa using ih
      | some x =>
        rw [hs2] at hsd
        have htail : (s :: s2 :: ss2).tail.filterMap List.head? =
            x :: ss2.filterMap List.head? := by
          simp [List.filterMap_cons_some hs2]
        rw [htail]
        have hrec : List.Sublist (replayFlagsOf (s2 :: ss2) g) (ss2.filterMap List.head?) := by
          simpa using ih
        have := hsd.append hrec
        simpa using this

end DDC

/-- C10: the incomplete-replay detector never flags the chronologically last
event of the stream — for a newest-first input with pairwise distinct
timestamps, no element of the detector's output carries the timestamp of the
input's head (the most recent scrobble). -/
theorem claim_C10_last_event_never_flagged (scrobbles : List Scrobble) (g : GetDuration)
    (hnd : utsNodup scrobbles) (x : Scrobble) (hhead : scrobbles.head? = some x) :
    ∀ f ∈ DD.detectIncompleteReplays scrobbles g, f.uts ≠ x.uts := by
  intro f hf
  rw [DD.detectIncompleteReplays] at hf
  by_cases hlen : scrobbles.length < 2
  · rw [if_pos hlen] at hf
    simp at hf
  · rw [if_neg hlen] at hf
    have hz : scrobbles.reverse.getLast? = some x := by
      rw [List.getLast?_reverse]
      exact hhead
    exact DD.incompleteGo_not_last g scrobbles.reverse
      ((utsNodup_reverse scrobbles).mpr hnd) x hz f hf

/-- Witness for C10: in the concrete run `[t=0, t=30]` of the same track with a
200-second duration, the detector flags the event at `t=0` while the most
recent event (`t=30`) keeps a different timestamp. -/
theorem claim_C10_last_event_never_flagged_witness :
    (⟨"A", "T", 0⟩ : Scrobble) ∈ DD.detectIncompleteReplays
      [⟨"A", "T", 30⟩, ⟨"A", "T", 0⟩] (fun _ _ => some 200000) ∧
    (⟨"A", "T", 0⟩ : Scrobble).uts ≠ (⟨"A", "T", 30⟩ : Scrobble).uts := by
  have hm : (⟨"A", "T", 0⟩ : Scrobble) ∈ DD.detectIncompleteReplays
      [⟨"A", "T", 30⟩, ⟨"A", "T", 0⟩] (fun _ _ => some 200000) := by
    rw [DD.detectIncompleteReplays]
    rw [if_neg (by decide)]
    rw [show ([⟨"A", "T", 30⟩, ⟨"A", "T", 0⟩] : List Scrobble).reverse =
      [⟨"A", "T", 0⟩, ⟨"A", "T", 30⟩] from rfl]
    rw [DD.incompleteGo_cons]
    simp +decide [DD.takeRun, DD.runFlags, DD.processRun, DD.completedFlags,
      DD.keepFlags, DD.incompleteGo_nil]
    norm_num
  exact ⟨hm, claim_C10_last_event_never_flagged [⟨"A", "T", 30⟩, ⟨"A", "T", 0⟩]
    (fun _ _ => some 200000) (by decide) ⟨"A", "T", 30⟩ rfl ⟨"A", "T", 0⟩ hm⟩

/-- Witness for C9 at a concrete one-array store. -/
theorem claim_C9_no_mutation_witness :
    readArr (DD.detectDuplicatesSt [[⟨"A", "T", 10⟩, ⟨"A", "T", 0⟩]] 0 1800
      (fun _ _ => some 100000)).1 0 = readArr [[⟨"A", "T", 10⟩, ⟨"A", "T", 0⟩]] 0 :=
  (claim_C9_no_mutation [[⟨"A", "T", 10⟩, ⟨"A", "T", 0⟩]] 0 1800
    (fun _ _ => some 100000) (by decide)).2.2.2.2.2.2.1

namespace DD

theorem foldl_mergeStep1P (durUts : List Int) (l : List Scrobble)
    (init : List Int × List FlaggedDuplicate) :
    (l.foldl (mergeStep1 durUts) init).2 =
      init.2 ++ l.map (fun s =>
        (⟨s, if s.uts ∈ durUts then Reason.both else Reason.sessionReplay⟩ :
          FlaggedDuplicate)) ∧
    ∀ u : Int, u ∈ (l.foldl (mergeStep1 durUts) init).1 ↔
      u ∈ init.1 ∨ u ∈ l.map (fun s => s.uts) := by
  obtain ⟨a, b⟩ := init
  exact foldl_mergeStep1 durUts l a b

theorem foldl_mergeStepNewP (r : Reason) (l : List Scrobble)
    (init : List Int × List FlaggedDuplicate) (hnd : (l.map (fun s => s.uts)).Nodup) :
    (l.foldl (mergeStepNew r) init).2 =
      init.2 ++ (l.filter (fun s => decide (s.uts ∉ init.1))).map
        (fun s => (⟨s, r⟩ : FlaggedDuplicate)) ∧
    ∀ u : Int, u ∈ (l.foldl (mergeStepNew r) init).1 ↔
      u ∈ init.1 ∨ u ∈ l.map (fun s => s.uts) := by
  obtain ⟨a, b⟩ := init
  exact foldl_mergeStepNew r l a b hnd

theorem replayUts_nodup (scrobbles : List Scrobble) (gapSeconds : Int)
    (hnd : utsNodup scrobbles) :
    ((replayFlagsOf (groupIntoSessions scrobbles gapSeconds)).map (fun s => s.uts)).Nodup := by
  have h1 := replayFlagsOf_sub (groupIntoSessions scrobbles gapSeconds)
  have h2 := (List.tail_sublist (groupIntoSessions scrobbles gapSeconds)).filterMap List.head?
  have h3 := headsOf_sublist (groupIntoSessions scrobbles gapSeconds)
  have hchain := (h1.trans h2).trans h3
  rw [(groupIntoSessions_spec scrobbles gapSeconds).1] at hchain
  exact ((utsNodup_reverse scrobbles).mpr hnd).sublist (hchain.map (fun s => s.uts))

theorem durationUts_nodup (scrobbles : List Scrobble) (g : GetDuration)
    (hnd : utsNodup scrobbles) :
    ((detectDurationOverlaps scrobbles g).map (fun s => s.uts)).Nodup :=
  ((utsNodup_reverse scrobbles).mpr hnd).sublist
    ((detectDurationOverlaps_sublist scrobbles g).map (fun s => s.uts))

theorem incompleteUts_nodup (scrobbles : List Scrobble) (g : GetDuration)
    (hnd : utsNodup scrobbles) :
    ((detectIncompleteReplays scrobbles g).map (fun s => s.uts)).Nodup :=
  ((utsNodup_reverse scrobbles).mpr hnd).sublist
    ((detectIncompleteReplays_sublist scrobbles g).map (fun s => s.uts))

/-- The three-pass merge, characterized: session-replay flags first (reason
`both` exactly when the duration-overlap detector also flagged the timestamp),
then unclaimed duration-overlap flags, then duration-overlap- and
session-replay-unclaimed incomplete-replay flags, each in detector order. -/
theorem detectDuplicates_flagged (scrobbles : List Scrobble) (gapSeconds : Int)
    (g : GetDuration) (hnd : utsNodup scrobbles) :
    (detectDuplicates scrobbles gapSeconds g).flagged =
      (replayFlagsOf (groupIntoSessions scrobbles gapSeconds)).map
        (fun s => (⟨s,
          if s.uts ∈ (detectDurationOverlaps scrobbles g).map (fun d => d.uts)
          then Reason.both else Reason.sessionReplay⟩ : FlaggedDuplicate)) ++
      ((detectDurationOverlaps scrobbles g).filter (fun s =>
        decide (s.uts ∉ (replayFlagsOf (groupIntoSessions scrobbles gapSeconds)).map
          (fun d => d.uts)))).map
        (fun s => (⟨s, Reason.durationOverlap⟩ : FlaggedDuplicate)) ++
      ((detectIncompleteReplays scrobbles g).filter (fun s =>
        decide (s.uts ∉ (replayFlagsOf (groupIntoSessions scrobbles gapSeconds)).map
          (fun d => d.uts)) &&
        decide (s.uts ∉ (detectDurationOverlaps scrobbles g).map (fun d => d.uts)))).map
        (fun s => (⟨s, Reason.incompleteReplay⟩ : FlaggedDuplicate)) := by
  rw [detectDuplicates]
  dsimp only
  obtain ⟨h11, h12⟩ := foldl_mergeStep1P
    ((detectDurationOverlaps scrobbles g).map (fun d => d.uts))
    (replayFlagsOf (groupIntoSessions scrobbles gapSeconds)) ([], [])
  obtain ⟨h21, h22⟩ := foldl_mergeStepNewP Reason.durationOverlap
    (detectDurationOverlaps scrobbles g)
    ((replayFlagsOf (groupIntoSessions scrobbles gapSeconds)).foldl
      (mergeStep1 ((detectDurationOverlaps scrobbles g).map (fun d => d.uts))) ([], []))
    (durationUts_nodup scrobbles g hnd)
  obtain ⟨h31, _⟩ := foldl_mergeStepNewP Reason.incompleteReplay
    (detectIncompleteReplays scrobbles g)
    ((detectDurationOverlaps scrobbles g).foldl (mergeStepNew Reason.durationOverlap)
      ((replayFlagsOf (groupIntoSessions scrobbles gapSeconds)).foldl
        (mergeStep1 ((detectDurationOverlaps scrobbles g).map (fun d => d.uts))) ([], [])))
    (incompleteUts_nodup scrobbles g hnd)
  rw [h31, h21, h11]
  have hseen1 : ∀ u : Int,
      u ∈ ((replayFlagsOf (groupIntoSessions scrobbles gapSeconds)).foldl
        (mergeStep1 ((detectDurationOverlaps scrobbles g).map (fun d => d.uts))) ([], [])).1 ↔
      u ∈ (replayFlagsOf (groupIntoSessions scrobbles gapSeconds)).map (fun s => s.uts) := by
    intro u
    rw [h12 u]
    simp
  have hc2 : (detectDurationOverlaps scrobbles g).filter (fun s =>
      decide (s.uts ∉ ((replayFlagsOf (groupIntoSessions scrobbles gapSeconds)).foldl
        (mergeStep1 ((detectDurationOverlaps scrobbles g).map (fun d => d.uts))) ([], [])).1)) =
      (detectDurationOverlaps scrobbles g).filter (fun s =>
        decide (s.uts ∉ (replayFlagsOf (groupIntoSessions scrobbles gapSeconds)).map
          (fun d => d.uts))) := by
    apply List.filter_congr
    intro s _
    exact decide_eq_decide.mpr (not_congr (hseen1 s.uts))
  have hc3 : (detectIncompleteReplays scrobbles g).filter (fun s =>
      decide (s.uts ∉ ((detectDurationOverlaps scrobbles g).foldl
        (mergeStepNew Reason.durationOverlap)
        ((replayFlagsOf (groupIntoSessions scrobbles gapSeconds)).foldl
          (mergeStep1 ((detectDurationOverlaps scrobbles g).map (fun d => d.uts)))
          ([], []))).1)) =
      (detectIncompleteReplays scrobbles g).filter (fun s =>
        decide (s.uts ∉ (replayFlagsOf (groupIntoSessions scrobbles gapSeconds)).map
          (fun d => d.uts)) &&
        decide (s.uts ∉ (detectDurationOverlaps scrobbles g).map (fun d => d.uts))) := by
    apply List.filter_congr
    intro s _
    have hiff := (h22 s.uts).trans (or_congr_left (hseen1 s.uts))
    by_cases hA : s.uts ∈ (replayFlagsOf (groupIntoSessions scrobbles gapSeconds)).map
        (fun d => d.uts)
    · simp [hA, hiff]
    · by_cases hB : s.uts ∈ (detectDurationOverlaps scrobbles g).map (fun d => d.uts)
      · simp [hA, hB, hiff]
      · simp [hA, hB, hiff]
  rw [hc2, hc3]
  simp

end DD

namespace DDC

theorem foldl_mergeStepOldP (r : Reason) (l : List Scrobble)
    (init : List Int × List FlaggedDuplicate) :
    (l.foldl (mergeStepOld r) init).2 =
      init.2 ++ (l.filter (fun s => decide (s.uts ∉ init.1))).map
        (fun s => (⟨s, r⟩ : FlaggedDuplicate)) ∧
    (l.foldl (mergeStepOld r) init).1 = init.1 := by
  obtain ⟨a, b⟩ := init
  exact foldl_mergeStepOld r l a b

theorem replayUtsChecked_nodup (scrobbles : List Scrobble) (gapSeconds : Int)
    (g : GetDuration) (hnd : utsNodup scrobbles) :
    ((replayFlagsOf (DD.groupIntoSessions scrobbles gapSeconds) g).map
      (fun s => s.uts)).Nodup := by
  have h1 := replayFlagsOf_subChecked g (DD.groupIntoSessions scrobbles gapSeconds)
  have h2 := (List.tail_sublist (DD.groupIntoSessions scrobbles gapSeconds)).filterMap
    List.head?
  have h3 := DD.headsOf_sublist (DD.groupIntoSessions scrobbles gapSeconds)
  have hchain := (h1.trans h2).trans h3
  rw [(DD.groupIntoSessions_spec scrobbles gapSeconds).1] at hchain
  exact ((utsNodup_reverse scrobbles).mpr hnd).sublist (hchain.map (fun s => s.uts))

/-- The two-pass merge of the duration-checked revision, characterized. -/
theorem detectDuplicates_flaggedChecked (scrobbles : List Scrobble) (gapSeconds : Int)
    (g : GetDuration) :
    (detectDuplicates scrobbles gapSeconds g).flagged =
      (replayFlagsOf (DD.groupIntoSessions scrobbles gapSeconds) g).map
        (fun s => (⟨s,
          if s.uts ∈ (DD.detectDurationOverlaps scrobbles g).map (fun d => d.uts)
          then Reason.both else Reason.sessionReplay⟩ : FlaggedDuplicate)) ++
      ((DD.detectDurationOverlaps scrobbles g).filter (fun s =>
        decide (s.uts ∉ (replayFlagsOf (DD.groupIntoSessions scrobbles gapSeconds) g).map
          (fun d => d.uts)))).map
        (fun s => (⟨s, Reason.durationOverlap⟩ : FlaggedDuplicate)) := by
  rw [detectDuplicates]
  dsimp only
  obtain ⟨h11, h12⟩ := DD.foldl_mergeStep1P
    ((DD.detectDurationOverlaps scrobbles g).map (fun d => d.uts))
    (replayFlagsOf (DD.groupIntoSessions scrobbles gapSeconds) g) ([], [])
  obtain ⟨h21, _⟩ := foldl_mergeStepOldP Reason.durationOverlap
    (DD.detectDurationOverlaps scrobbles g)
    ((replayFlagsOf (DD.groupIntoSessions scrobbles gapSeconds) g).foldl
      (DD.mergeStep1 ((DD.detectDurationOverlaps scrobbles g).map (fun d => d.uts)))
      ([], []))
  rw [h21, h11]
  have hseen1 : ∀ u : Int,
      u ∈ ((replayFlagsOf (DD.groupIntoSessions scrobbles gapSeconds) g).foldl
        (DD.mergeStep1 ((DD.detectDurationOverlaps scrobbles g).map (fun d => d.uts)))
        ([], [])).1 ↔
      u ∈ (replayFlagsOf (DD.groupIntoSessions scrobbles gapSeconds) g).map
        (fun s => s.uts) := by
    intro u
    rw [h12 u]
    simp
  have hc2 : (DD.detectDurationOverlaps scrobbles g).filter (fun s =>
      decide (s.uts ∉ ((replayFlagsOf (DD.groupIntoSessions scrobbles gapSeconds) g).foldl
        (DD.mergeStep1 ((DD.detectDurationOverlaps scrobbles g).map (fun d => d.uts)))
        ([], [])).1)) =
      (DD.detectDurationOverlaps scrobbles g).filter (fun s =>
        decide (s.uts ∉ (replayFlagsOf (DD.groupIntoSessions scrobbles gapSeconds) g).map
          (fun d => d.uts))) := by
    apply List.filter_congr
    intro s _
    exact decide_eq_decide.mpr (not_congr (hseen1 s.uts))
  rw [hc2]
  simp

end DDC

theorem nodup_three_append {A B C : List Int}
    (hA : A.Nodup) (hB : B.Nodup) (hC : C.Nodup)
    (hAB : ∀ u ∈ B, u ∉ A) (hAC : ∀ u ∈ C, u ∉ A) (hBC : ∀ u ∈ C, u ∉ B) :
    (A ++ B ++ C).Nodup := by
  rw [List.nodup_append, List.nodup_append]
  refine ⟨⟨hA, hB, ?_⟩, hC, ?_⟩
  · intro a ha hb
    exact hAB a hb ha
  · intro a ha hc
    rcases List.mem_append.mp ha with h | h
    · exact hAC a hc h
    · exact hBC a hc h

/-- C5: the final flagged list is exactly: the session-replay detector's events
first, in session order, each labelled `both` when the duration-overlap
detector flagged the same timestamp and `session-replay` otherwise; then the
duration-overlap events not claimed by session-replay, in chronological scan
order, labelled `duration-overlap`; then the incomplete-replay events claimed
by neither of the other two detectors, in chronological scan order, labelled
`incomplete-replay`. -/
theorem claim_C5_merge_reasons_and_order (scrobbles : List Scrobble) (gapSeconds : Int)
    (g : GetDuration) (hnd : utsNodup scrobbles) :
    (DD.detectDuplicates scrobbles gapSeconds g).flagged =
      (DD.replayFlagsOf (DD.groupIntoSessions scrobbles gapSeconds)).map
        (fun s => (⟨s,
          if s.uts ∈ (DD.detectDurationOverlaps scrobbles g).map (fun d => d.uts)
          then Reason.both else Reason.sessionReplay⟩ : FlaggedDuplicate)) ++
      ((DD.detectDurationOverlaps scrobbles g).filter (fun s =>
        decide (s.uts ∉ (DD.replayFlagsOf (DD.groupIntoSessions scrobbles gapSeconds)).map
          (fun d => d.uts)))).map
        (fun s => (⟨s, Reason.durationOverlap⟩ : FlaggedDuplicate)) ++
      ((DD.detectIncompleteReplays scrobbles g).filter (fun s =>
        decide (s.uts ∉ (DD.replayFlagsOf (DD.groupIntoSessions scrobbles gapSeconds)).map
          (fun d => d.uts)) &&
        decide (s.uts ∉ (DD.detectDurationOverlaps scrobbles g).map (fun d => d.uts)))).map
        (fun s => (⟨s, Reason.incompleteReplay⟩ : FlaggedDuplicate)) :=
  DD.detectDuplicates_flagged scrobbles gapSeconds g hnd

/-- Witness for C5 at a concrete two-event overlap-and-incomplete stream. -/
theorem claim_C5_merge_reasons_and_order_witness :
    (DD.detectDuplicates [⟨"A", "T", 100⟩, ⟨"A", "T", 0⟩] 1800
        (fun _ _ => some 200000)).flagged =
      (DD.replayFlagsOf (DD.groupIntoSessions [⟨"A", "T", 100⟩, ⟨"A", "T", 0⟩] 1800)).map
        (fun s => (⟨s,
          if s.uts ∈ (DD.detectDurationOverlaps [⟨"A", "T", 100⟩, ⟨"A", "T", 0⟩]
              (fun _ _ => some 200000)).map (fun d => d.uts)
          then Reason.both else Reason.sessionReplay⟩ : FlaggedDuplicate)) ++
      ((DD.detectDurationOverlaps [⟨"A", "T", 100⟩, ⟨"A", "T", 0⟩]
          (fun _ _ => some 200000)).filter (fun s =>
        decide (s.uts ∉ (DD.replayFlagsOf
          (DD.groupIntoSessions [⟨"A", "T", 100⟩, ⟨"A", "T", 0⟩] 1800)).map
          (fun d => d.uts)))).map
        (fun s => (⟨s, Reason.durationOverlap⟩ : FlaggedDuplicate)) ++
      ((DD.detectIncompleteReplays [⟨"A", "T", 100⟩, ⟨"A", "T", 0⟩]
          (fun _ _ => some 200000)).filter (fun s =>
        decide (s.uts ∉ (DD.replayFlagsOf
          (DD.groupIntoSessions [⟨"A", "T", 100⟩, ⟨"A", "T", 0⟩] 1800)).map
          (fun d => d.uts)) &&
        decide (s.uts ∉ (DD.detectDurationOverlaps [⟨"A", "T", 100⟩, ⟨"A", "T", 0⟩]
          (fun _ _ => some 200000)).map (fun d => d.uts)))).map
        (fun s => (⟨s, Reason.incompleteReplay⟩ : FlaggedDuplicate)) :=
  claim_C5_merge_reasons_and_order [⟨"A", "T", 100⟩, ⟨"A", "T", 0⟩] 1800
    (fun _ _ => some 200000) (by decide)

/-- C6: for every input with the data model's distinct timestamps, the final
flagged list of the merge contains each event identity (timestamp) at most
once — in the three-pass revision and in the two-pass revision alike. -/
theorem claim_C6_merge_identity_unique (scrobbles : List Scrobble) (gapSeconds : Int)
    (g : GetDuration) (hnd : utsNodup scrobbles) :
    ((DD.detectDuplicates scrobbles gapSeconds g).flagged.map
      (fun f => f.scrobble.uts)).Nodup ∧
    ((DDC.detectDuplicates scrobbles gapSeconds g).flagged.map
      (fun f => f.scrobble.uts)).Nodup := by
  constructor
  · rw [DD.detectDuplicates_flagged scrobbles gapSeconds g hnd, List.map_append,
      List.map_append, List.map_map, List.map_map, List.map_map]
    have e1 : ((fun f : FlaggedDuplicate => f.scrobble.uts) ∘
        (fun s : Scrobble => (⟨s,
          if s.uts ∈ (DD.detectDurationOverlaps scrobbles g).map (fun d => d.uts)
          then Reason.both else Reason.sessionReplay⟩ : FlaggedDuplicate))) =
        fun s : Scrobble => s.uts := rfl
    have e2 : ((fun f : FlaggedDuplicate => f.scrobble.uts) ∘
        (fun s : Scrobble => (⟨s, Reason.durationOverlap⟩ : FlaggedDuplicate))) =
        fun s : Scrobble => s.uts := rfl
    have e3 : ((fun f : FlaggedDuplicate => f.scrobble.uts) ∘
        (fun s : Scrobble => (⟨s, Reason.incompleteReplay⟩ : FlaggedDuplicate))) =
        fun s : Scrobble => s.uts := rfl
    rw [e1, e2, e3]
    apply nodup_three_append
    · exact DD.replayUts_nodup scrobbles gapSeconds hnd
    · have hs1 : List.Sublist ((DD.detectDurationOverlaps scrobbles g).filter (fun s =>
          decide (s.uts ∉ (DD.replayFlagsOf (DD.groupIntoSessions scrobbles gapSeconds)).map
            (fun d => d.uts)))) (DD.detectDurationOverlaps scrobbles g) := List.filter_sublist _
      exact (DD.durationUts_nodup scrobbles g hnd).sublist (hs1.map (fun s => s.uts))
    · have hs1 : List.Sublist ((DD.detectIncompleteReplays scrobbles g).filter (fun s =>
          decide (s.uts ∉ (DD.replayFlagsOf (DD.groupIntoSessions scrobbles gapSeconds)).map
            (fun d => d.uts)) &&
          decide (s.uts ∉ (DD.detectDurationOverlaps scrobbles g).map (fun d => d.uts))))
          (DD.detectIncompleteReplays scrobbles g) := List.filter_sublist _
      exact (DD.incompleteUts_nodup scrobbles g hnd).sublist (hs1.map (fun s => s.uts))
    · intro u hu hA
      obtain ⟨s, hs, hEq⟩ := List.mem_map.mp hu
      obtain ⟨hsD, hp⟩ := List.mem_filter.mp hs
      exact (of_decide_eq_true hp) (hEq ▸ hA)
    · intro u hu hA
      obtain ⟨s, hs, hEq⟩ := List.mem_map.mp hu
      obtain ⟨hsI, hp⟩ := List.mem_filter.mp hs
      obtain ⟨hp1, _⟩ := Bool.and_eq_true_iff.mp hp
      exact (of_decide_eq_true hp1) (hEq ▸ hA)
    · intro u hu hB
      obtain ⟨s, hs, hEq⟩ := List.mem_map.mp hu
      obtain ⟨hsI, hp⟩ := List.mem_filter.mp hs
      obtain ⟨_, hp2⟩ := Bool.and_eq_true_iff.mp hp
      have hs1 : List.Sublist ((DD.detectDurationOverlaps scrobbles g).filter (fun s =>
          decide (s.uts ∉ (DD.replayFlagsOf (DD.groupIntoSessions scrobbles gapSeconds)).map
            (fun d => d.uts)))) (DD.detectDurationOverlaps scrobbles g) := List.filter_sublist _
      have hBsub : u ∈ (DD.detectDurationOverlaps scrobbles g).map (fun s => s.uts) :=
        (hs1.map (fun s => s.uts)).subset hB
      exact (of_decide_eq_true hp2) (hEq ▸ hBsub)
  · rw [DDC.detectDuplicates_flaggedChecked scrobbles gapSeconds g, List.map_append,
      List.map_map, List.map_map]
    have e1 : ((fun f : FlaggedDuplicate => f.scrobble.uts) ∘
        (fun s : Scrobble => (⟨s,
          if s.uts ∈ (DD.detectDurationOverlaps scrobbles g).map (fun d => d.uts)
          then Reason.both else Reason.sessionReplay⟩ : FlaggedDuplicate))) =
        fun s : Scrobble => s.uts := rfl
    have e2 : ((fun f : FlaggedDuplicate => f.scrobble.uts) ∘
        (fun s : Scrobble => (⟨s, Reason.durationOverlap⟩ : FlaggedDuplicate))) =
        fun s : Scrobble => s.uts := rfl
    rw [e1, e2, List.nodup_append]
    refine ⟨DDC.replayUtsChecked_nodup scrobbles gapSeconds g hnd, ?_, ?_⟩
    · have hs1 : List.Sublist ((DD.detectDurationOverlaps scrobbles g).filter (fun s =>
          decide (s.uts ∉ (DDC.replayFlagsOf (DD.groupIntoSessions scrobbles gapSeconds) g).map
            (fun d => d.uts)))) (DD.detectDurationOverlaps scrobbles g) := List.filter_sublist _
      exact (DD.durationUts_nodup scrobbles g hnd).sublist (hs1.map (fun s => s.uts))
    · intro u hA hu
      obtain ⟨s, hs, hEq⟩ := List.mem_map.mp hu
      obtain ⟨hsD, hp⟩ := List.mem_filter.mp hs
      exact (of_decide_eq_true hp) (hEq ▸ hA)

/-- Witness for C6 at a concrete stream with a replay and an overlap. -/
theorem claim_C6_merge_identity_unique_witness :
    ((DD.detectDuplicates [⟨"A", "T", 100⟩, ⟨"A", "T", 0⟩] 1800
      (fun _ _ => some 200000)).flagged.map (fun f => f.scrobble.uts)).Nodup ∧
    ((DDC.detectDuplicates [⟨"A", "T", 100⟩, ⟨"A", "T", 0⟩] 1800
      (fun _ _ => some 200000)).flagged.map (fun f => f.scrobble.uts)).Nodup :=
  claim_C6_merge_identity_unique [⟨"A", "T", 100⟩, ⟨"A", "T", 0⟩] 1800
    (fun _ _ => some 200000) (by decide)
